import Mathlib

/-!
Verification of the diff-editor engine: the opcode generator and replace-block
refiner of `src/my_diff_lib.py`, and the collapse/expand manager of
`src/main.py`.

The Python code builds on the standard library's `difflib.SequenceMatcher`
(an external dependency, not part of this repository).  Its matching-block
search is embedded here directly: `find_longest_match` with `isjunk=None`
(exactly the configuration used by `main.py`; the character-level cruncher of
the refiner additionally treats whitespace as junk, which is irrelevant for
the whitespace-free inputs used in the concrete theorems below), and
`get_matching_blocks` as the recursive longest-block decomposition followed by
the adjacent-block merge and the terminating sentinel, which is what difflib's
queue-plus-sort formulation computes.

Python floats appearing in similarity cutoffs are modelled as rationals; every
comparison performed by the code on the concrete inputs of the theorems below
is exact in both representations.

Recursive functions that Python runs by unbounded recursion are embedded with
an explicit fuel argument chosen at least as large as the recursion measure;
lemmas named `*_stable` prove the result does not depend on the fuel once the
fuel is sufficient, so the fuel is a totality device only, not a semantic
change.
-/

namespace DiffSpec

set_option maxRecDepth 100000

variable {α : Type} [DecidableEq α]

/-- `Tag` of `my_diff_lib.py` (an `IntEnum` there; `count` is the sentinel
value `COUNT` used by `generate_opcodes` for "no gap"). -/
inductive Tag where
  | replace
  | delete
  | insert
  | equal
  | count
deriving DecidableEq, Repr

/-- An opcode `(tag, i1, i2, j1, j2)`: `old[i1:i2]` corresponds to
`new[j1:j2]`. -/
abbrev Opcode := Tag × ℕ × ℕ × ℕ × ℕ

/-- `a[i] == b[j]` with both indices in bounds (Python would raise on an
out-of-bounds index; all uses below keep indices in bounds). -/
def elemEq (a b : List α) (i j : ℕ) : Bool :=
  match a.get? i, b.get? j with
  | some x, some y => decide (x = y)
  | _, _ => false

/-- Length of the common run `a[i:i+k] == b[j:j+k]` staying strictly below
`ahi`/`bhi`; fuel-driven, `matchLen` supplies sufficient fuel. -/
def mlGo (a b : List α) (ahi bhi : ℕ) : ℕ → ℕ → ℕ → ℕ
  | 0, _, _ => 0
  | f + 1, i, j =>
    if i < ahi ∧ j < bhi ∧ elemEq a b i j then mlGo a b ahi bhi f (i + 1) (j + 1) + 1
    else 0

def matchLen (a b : List α) (ahi bhi i j : ℕ) : ℕ :=
  mlGo a b ahi bhi (ahi - i) i j

/-- `difflib.SequenceMatcher.find_longest_match` with `isjunk=None`: among the
maximal common runs inside `a[alo:ahi]` × `b[blo:bhi]`, the one starting
earliest in `a`, then earliest in `b`; `(alo, blo, 0)` when there is none. -/
def flmStep (a b : List α) (ahi bhi i : ℕ) (best : ℕ × ℕ × ℕ) (j : ℕ) : ℕ × ℕ × ℕ :=
  let k := matchLen a b ahi bhi i j
  if best.2.2 < k then (i, j, k) else best

def find_longest_match (a b : List α) (alo ahi blo bhi : ℕ) : ℕ × ℕ × ℕ :=
  (List.range' alo (ahi - alo)).foldl
    (fun best i => (List.range' blo (bhi - blo)).foldl (flmStep a b ahi bhi i) best)
    (alo, blo, 0)

/-- The recursive decomposition inside `difflib`'s `get_matching_blocks`:
take the longest match, recurse on the sub-ranges strictly before and strictly
after it.  Fuel-driven; `matchingBlocksRec` supplies sufficient fuel. -/
def mbGo (a b : List α) : ℕ → ℕ → ℕ → ℕ → ℕ → List (ℕ × ℕ × ℕ)
  | 0, _, _, _, _ => []
  | f + 1, alo, ahi, blo, bhi =>
    let m := find_longest_match a b alo ahi blo bhi
    if 0 < m.2.2 then
      mbGo a b f alo m.1 blo m.2.1 ++
        m :: mbGo a b f (m.1 + m.2.2) ahi (m.2.1 + m.2.2) bhi
    else []

def matchingBlocksRec (a b : List α) (alo ahi blo bhi : ℕ) : List (ℕ × ℕ × ℕ) :=
  mbGo a b ((ahi - alo) + (bhi - blo)) alo ahi blo bhi

/-- The second phase of `get_matching_blocks`: collapse runs of adjacent
blocks into single blocks (`i1+k1 == i2 and j1+k1 == j2`), dropping the
initial dummy accumulator `(0, 0, 0)` if it absorbed nothing. -/
def mergeBlocks : ℕ × ℕ × ℕ → List (ℕ × ℕ × ℕ) → List (ℕ × ℕ × ℕ)
  | acc, [] => if acc.2.2 ≠ 0 then [acc] else []
  | acc, blk :: rest =>
    if acc.1 + acc.2.2 = blk.1 ∧ acc.2.1 + acc.2.2 = blk.2.1 then
      mergeBlocks (acc.1, acc.2.1, acc.2.2 + blk.2.2) rest
    else if acc.2.2 ≠ 0 then acc :: mergeBlocks blk rest
    else mergeBlocks blk rest

/-- `difflib.SequenceMatcher.get_matching_blocks` (no junk): ordered
non-overlapping maximal blocks, adjacent blocks merged, terminated by the
sentinel `(len(a), len(b), 0)`. -/
def get_matching_blocks (a b : List α) : List (ℕ × ℕ × ℕ) :=
  mergeBlocks (0, 0, 0) (matchingBlocksRec a b 0 a.length 0 b.length) ++
    [(a.length, b.length, 0)]

/-- Similarity scores.  The Python code computes them as floats; they are
modelled as exact fractions, never normalized (so they stay kernel-computable)
and compared by cross-multiplication.  All denominators constructed in this
development are positive, and every comparison the code performs on the
concrete inputs of the theorems below is exact for floats as well. -/
structure Frac where
  num : ℕ
  den : ℕ
deriving DecidableEq, Repr

def Frac.lt (x y : Frac) : Prop := x.num * y.den < y.num * x.den

def Frac.le (x y : Frac) : Prop := x.num * y.den ≤ y.num * x.den

instance (x y : Frac) : Decidable (Frac.lt x y) :=
  inferInstanceAs (Decidable (x.num * y.den < y.num * x.den))

instance (x y : Frac) : Decidable (Frac.le x y) :=
  inferInstanceAs (Decidable (x.num * y.den ≤ y.num * x.den))

def Frac.mul (x y : Frac) : Frac := ⟨x.num * y.num, x.den * y.den⟩

/-- The three similarity measures of the external `difflib.SequenceMatcher`
used by `_refine_replace_block` on a pair of lines, in increasing cost:
`real_quick_ratio`, `quick_ratio`, `ratio`.  Kept abstract here so the
refiner is embedded for an arbitrary cruncher; `strCruncher` below is the
concrete instance. -/
structure Cruncher (α : Type) where
  realQuick : α → α → Frac
  quick : α → α → Frac
  full : α → α → Frac

/-- `SequenceMatcher.REFINE_CUTOFF = 0.75` of `my_diff_lib.py`. -/
def REFINE_CUTOFF : Frac := ⟨3, 4⟩

/-- `best_ratio` starts just under the cutoff: `REFINE_CUTOFF * 0.98`. -/
def initBestR : Frac := Frac.mul REFINE_CUTOFF ⟨98, 100⟩

/-- State of the search loop of `_refine_replace_block`: the best score seen
so far (`best_ratio`), the pair it was seen at (`best_i, best_j`, absent
while still `-1, -1` in the source), and the first identical pair
(`eqi, eqj`, absent while still `None`). -/
structure RSearch where
  bestR : Frac
  best : Option (ℕ × ℕ)
  eq : Option (ℕ × ℕ)
deriving DecidableEq, Repr

/-- One step of the search loop body of `_refine_replace_block` for the pair
`(i, j)`: identical lines feed `eqi, eqj` and are skipped; otherwise the
three-stage cheap-to-expensive filter updates the best non-identical pair. -/
def searchStep (c : Cruncher α) (a b : List α) (s : RSearch) (i j : ℕ) : RSearch :=
  match a.get? i, b.get? j with
  | some ai, some bj =>
    if ai = bj then
      if s.eq = none then { s with eq := some (i, j) } else s
    else if Frac.le (c.realQuick ai bj) s.bestR then s
    else if Frac.le (c.quick ai bj) s.bestR then s
    else
      let r := c.full ai bj
      if Frac.lt s.bestR r then { bestR := r, best := some (i, j), eq := s.eq } else s
  | _, _ => s

/-- The double search loop of `_refine_replace_block`:
`for j in range(j1, j2): for i in range(i1, i2)`. -/
def refineSearch (c : Cruncher α) (a b : List α) (i1 i2 j1 j2 : ℕ) : RSearch :=
  (List.range' j1 (j2 - j1)).foldl
    (fun s j => (List.range' i1 (i2 - i1)).foldl (fun s i => searchStep c a b s i j) s)
    ⟨initBestR, none, none⟩

/-- The synchronization-point decision of `_refine_replace_block`: when
`best_ratio` stayed under the cutoff use the identical pair if any (flag
`true`), else no synch point; otherwise use the best non-identical pair (flag
`false`, the identical pair is forgotten).  A best score at or above the
cutoff can only come from an update, so the `none` fallback in the second
branch is dead code (`chooseSync_bounds` below). -/
def chooseSync (s : RSearch) : Option (ℕ × ℕ × Bool) :=
  if Frac.lt s.bestR REFINE_CUTOFF then
    match s.eq with
    | none => none
    | some (ei, ej) => some (ei, ej, true)
  else
    match s.best with
    | some (bi, bj) => some (bi, bj, false)
    | none => none

/-- `_refine_replace_block`, fuel-driven (`refine_replace_block` supplies
sufficient fuel): base cases for an empty side, then recurse strictly before
the synch point, emit the synch pair itself (`EQUAL` if identical, `REPLACE`
otherwise), recurse strictly after it; a single whole-range `REPLACE` when no
synch point exists. -/
def refineGo (c : Cruncher α) (a b : List α) : ℕ → ℕ → ℕ → ℕ → ℕ → List Opcode
  | 0, i1, i2, j1, j2 =>
    if i2 ≤ i1 then if j1 < j2 then [(Tag.insert, i1, i1, j1, j2)] else []
    else if j2 ≤ j1 then if i1 < i2 then [(Tag.delete, i1, i2, j1, j1)] else []
    else []
  | f + 1, i1, i2, j1, j2 =>
    if i2 ≤ i1 then if j1 < j2 then [(Tag.insert, i1, i1, j1, j2)] else []
    else if j2 ≤ j1 then if i1 < i2 then [(Tag.delete, i1, i2, j1, j1)] else []
    else
      match chooseSync (refineSearch c a b i1 i2 j1 j2) with
      | none => [(Tag.replace, i1, i2, j1, j2)]
      | some (bi, bj, isEq) =>
        refineGo c a b f i1 bi j1 bj ++
          ((if isEq then Tag.equal else Tag.replace), bi, bi + 1, bj, bj + 1) ::
            refineGo c a b f (bi + 1) i2 (bj + 1) j2

def refine_replace_block (c : Cruncher α) (a b : List α) (i1 i2 j1 j2 : ℕ) : List Opcode :=
  refineGo c a b ((i2 - i1) + (j2 - j1)) i1 i2 j1 j2

/-- The loop body of `generate_opcodes`: walk the matching blocks keeping the
current position `(i, j)`; emit the gap opcode before each block (refined when
`refine` and the gap is a replace), then an `EQUAL` opcode for the block
itself when its size is nonzero. -/
def genGo (c : Cruncher α) (a b : List α) (refine : Bool) :
    ℕ → ℕ → List (ℕ × ℕ × ℕ) → List Opcode
  | _, _, [] => []
  | i, j, (ai, bj, size) :: rest =>
    (let tag :=
      if i < ai ∧ j < bj then Tag.replace
      else if i < ai then Tag.delete
      else if j < bj then Tag.insert
      else Tag.count
    (if refine ∧ tag = Tag.replace then refine_replace_block c a b i ai j bj
     else if tag ≠ Tag.count then [(tag, i, ai, j, bj)]
     else []) ++
      (if size ≠ 0 then [(Tag.equal, ai, ai + size, bj, bj + size)] else [])) ++
      genGo c a b refine (ai + size) (bj + size) rest

/-- `SequenceMatcher.generate_opcodes` of `my_diff_lib.py` (the generator's
yield sequence, as a list). -/
def generate_opcodes (c : Cruncher α) (a b : List α) (refine : Bool) : List Opcode :=
  genGo c a b refine 0 0 (get_matching_blocks a b)

/-! ### The concrete character-level cruncher

`_refine_replace_block` scores line pairs with a character-level
`difflib.SequenceMatcher`.  `ratio` is twice the total matched size over the
total length, `quick_ratio` the same using multiset overlap, and
`real_quick_ratio` using the minimum length (`1` for two empty sequences). -/

def calcR (m total : ℕ) : Frac :=
  if total ≠ 0 then ⟨2 * m, total⟩ else ⟨1, 1⟩

def charMatches (x y : List Char) : ℕ :=
  ((get_matching_blocks x y).map (fun m => m.2.2)).sum

def multisetMatches (x y : List Char) : ℕ :=
  (x.dedup.map (fun ch => min (x.count ch) (y.count ch))).sum

def strFull (x y : String) : Frac :=
  calcR (charMatches x.data y.data) (x.length + y.length)

def strQuick (x y : String) : Frac :=
  calcR (multisetMatches x.data y.data) (x.length + y.length)

def strRealQuick (x y : String) : Frac :=
  calcR (min x.length y.length) (x.length + y.length)

/-- The line cruncher created by `_refine_replace_block`
(`difflib.SequenceMatcher(isjunk=difflib.IS_CHARACTER_JUNK)`); the
whitespace-junk heuristic of the external library only affects lines
containing blanks or tabs and is not modelled. -/
def strCruncher : Cruncher String :=
  ⟨strRealQuick, strQuick, strFull⟩

/-- `difflib.SequenceMatcher(None, old, new, autojunk=False).get_opcodes()`
as used by `main.py`: the same block walk as `generate_opcodes` without
refinement. -/
def get_opcodes (a b : List String) : List Opcode :=
  generate_opcodes strCruncher a b false

/-! ### The collapse manager of `main.py`

`DiffEditor.set_diff_text` consumes the opcode stream, collapses long equal
runs into placeholders, and records which displayed line is a placeholder for
which collapsed section; `expand_section` splices a section back.  The Qt
document of each side is modelled as a list of display lines, each carrying
its text (with its trailing newline, as produced by `splitlines(keepends=
True)`) and its block `userState` (`-1` for a normal line — Qt's default —
and `index + 1` for the placeholder of collapsed section `index`). -/

/-- `DiffEditor.COLLAPSE_THRESHOLD_LINES`. -/
def COLLAPSE_THRESHOLD_LINES : ℕ := 5

/-- `DiffEditor.COLLAPSE_CONTEXT_LINES`. -/
def COLLAPSE_CONTEXT_LINES : ℕ := 3

/-- Python's slice `l[i:j]` for `0 ≤ i ≤ j` (clipped at the length). -/
def pySlice (l : List α) (i j : ℕ) : List α :=
  (l.drop i).take (j - i)

/-- The placeholder display line
`f"[{num_hidden_lines} lines hidden, click to expand]\n"`. -/
def placeholderText (numHidden : ℕ) : String :=
  "[" ++ toString numHidden ++ " lines hidden, click to expand]" ++ "\n"

/-- Accumulator of the opcode loop of `set_diff_text`: the displayed parts of
both sides, the collapsed-section table, the recorded placeholder positions
`(line_number, collapse_index)` for both sides, and the running display line
counts. -/
structure CollapseAcc where
  dispOld : List String
  dispNew : List String
  sections : List (List String)
  phOld : List (ℕ × ℕ)
  phNew : List (ℕ × ℕ)
  oldLineNum : ℕ
  newLineNum : ℕ
deriving Repr

def CollapseAcc.start : CollapseAcc := ⟨[], [], [], [], [], 0, 0⟩

/-- The body of the `for tag, i1, i2, j1, j2 in matcher.get_opcodes()` loop of
`set_diff_text`: a long-enough equal run keeps `context` lines on each edge,
a placeholder replaces the interior, which is stored as a new collapsed
section; everything else is displayed in full. -/
def collapseStep (old new : List String) (acc : CollapseAcc) (op : Opcode) : CollapseAcc :=
  let (tag, i1, i2, j1, j2) := op
  let numEqualLines := i2 - i1
  let C := COLLAPSE_CONTEXT_LINES
  if tag = Tag.equal ∧ COLLAPSE_THRESHOLD_LINES < numEqualLines then
    let numHidden := numEqualLines - 2 * C
    let ph := placeholderText numHidden
    let collapseIndex := acc.sections.length
    { dispOld := acc.dispOld ++ (pySlice old i1 (i1 + C) ++ ph :: pySlice old (i2 - C) i2)
      dispNew := acc.dispNew ++ (pySlice new j1 (j1 + C) ++ ph :: pySlice new (j2 - C) j2)
      sections := acc.sections ++ [pySlice old (i1 + C) (i2 - C)]
      phOld := acc.phOld ++ [(acc.oldLineNum + C, collapseIndex)]
      phNew := acc.phNew ++ [(acc.newLineNum + C, collapseIndex)]
      oldLineNum := acc.oldLineNum + (2 * C + 1)
      newLineNum := acc.newLineNum + (2 * C + 1) }
  else
    { acc with
      dispOld := acc.dispOld ++ pySlice old i1 i2
      dispNew := acc.dispNew ++ pySlice new j1 j2
      oldLineNum := acc.oldLineNum + (i2 - i1)
      newLineNum := acc.newLineNum + (j2 - j1) }

def collapseFold (old new : List String) : CollapseAcc :=
  (get_opcodes old new).foldl (collapseStep old new) CollapseAcc.start

/-- Setting the recorded `userState`s: display line number `n` gets state
`collapse_index + 1` when `(n, collapse_index)` was recorded, `-1` (the Qt
default) otherwise.  The recorded positions are pairwise distinct, so the
`find?` lookup models the per-position `setUserState` loop exactly. -/
def applyStates (parts : List String) (phs : List (ℕ × ℕ)) : List (String × Int) :=
  parts.enum.map fun p =>
    match phs.find? (fun q => q.1 = p.1) with
    | some q => (p.2, (q.2 : Int) + 1)
    | none => (p.2, -1)

/-- The two displayed documents and the collapsed-section table owned by a
`DiffEditor`. -/
structure EditorState where
  displayedOld : List (String × Int)
  displayedNew : List (String × Int)
  collapsed_sections : List (List String)
deriving DecidableEq, Repr

/-- `DiffEditor.set_diff_text` (its engine part: building the displayed
streams, the collapsed-section table and the placeholder states; lexers,
repaints and highlight recomputation are presentation-side). -/
def set_diff_text (old new : List String) : EditorState :=
  let acc := collapseFold old new
  { displayedOld := applyStates acc.dispOld acc.phOld
    displayedNew := applyStates acc.dispNew acc.phNew
    collapsed_sections := acc.sections }

/-- The block walk of `_expand_section` in one editor: the first block whose
`userState` equals `index + 1` is replaced (text and trailing newline) by the
stored lines, which arrive as fresh normal blocks; every other block is kept.
-/
def replaceFirstPh (state : Int) (hidden : List String) :
    List (String × Int) → List (String × Int)
  | [] => []
  | bl :: rest =>
    if bl.2 = state then hidden.map (fun h => (h, (-1 : Int))) ++ rest
    else bl :: replaceFirstPh state hidden rest

/-- The renumbering walk of `_expand_section`: every `userState` greater than
`index + 1` is decremented by one. -/
def renumber (index : ℕ) (doc : List (String × Int)) : List (String × Int) :=
  doc.map fun bl => if (index : Int) + 1 < bl.2 then (bl.1, bl.2 - 1) else bl

/-- `DiffEditor._expand_section`: splice the stored lines into both displayed
streams, drop the section from the table, shift later placeholder states
down. -/
def expandSectionImpl (st : EditorState) (index : ℕ) : EditorState :=
  let hidden := st.collapsed_sections.getD index []
  { displayedOld := renumber index (replaceFirstPh ((index : Int) + 1) hidden st.displayedOld)
    displayedNew := renumber index (replaceFirstPh ((index : Int) + 1) hidden st.displayedNew)
    collapsed_sections := st.collapsed_sections.eraseIdx index }

/-- `DiffEditor.expand_section`: guarded by `0 <= index < len(self.collapsed_sections)`,
otherwise nothing happens. -/
def expand_section (st : EditorState) (index : Int) : EditorState :=
  if 0 ≤ index ∧ index < (st.collapsed_sections.length : Int) then
    expandSectionImpl st index.toNat
  else st

/-- `LineNumbers._build_cache`: walk the displayed blocks once, starting the
original line counter at `1`; a placeholder with a valid collapse index
advances it by the hidden-line count (an invalid one by nothing), a normal
line by one.  The result lists the cache value of each block in order. -/
def build_cache (sections : List (List String)) : List (String × Int) → ℕ → List ℕ
  | [], _ => []
  | bl :: rest, n =>
    n ::
      build_cache sections rest
        (if 0 < bl.2 then
          (if (bl.2 - 1).toNat < sections.length then (sections.getD (bl.2 - 1).toNat []).length
           else 0) + n
         else n + 1)

/-- The lines a display block stands for: a placeholder stands for its
section's stored lines (none, if its index is stale), a normal block for its
own text. -/
def restoreLine (sections : List (List String)) (bl : String × Int) : List String :=
  if 0 < bl.2 then sections.getD (bl.2 - 1).toNat [] else [bl.1]

/-- The original line sequence a displayed document stands for. -/
def restoreDoc (sections : List (List String)) : List (String × Int) → List String
  | [] => []
  | bl :: rest => restoreLine sections bl ++ restoreDoc sections rest

/-! ### Facts about the refiner's search loop -/

/-- Position and score facts maintained by the search loop of
`_refine_replace_block`. -/
def SearchInv (a b : List α) (i1 i2 j1 j2 : ℕ) (s : RSearch) : Prop :=
  (∀ bi bj, s.best = some (bi, bj) → i1 ≤ bi ∧ bi < i2 ∧ j1 ≤ bj ∧ bj < j2) ∧
  (s.best = none → s.bestR = initBestR) ∧
  (∀ ei ej, s.eq = some (ei, ej) →
    i1 ≤ ei ∧ ei < i2 ∧ j1 ≤ ej ∧ ej < j2 ∧ elemEq a b ei ej = true)

/-! ### The chain invariant of the block decomposition -/

/-- No equal element pair inside the rectangle
`[ilo, ihi) × [jlo, jhi)`. -/
def GapFree (a b : List α) (ilo ihi jlo jhi : ℕ) : Prop :=
  ∀ i j, ilo ≤ i → i < ihi → jlo ≤ j → j < jhi → elemEq a b i j = false

/-- `a[i:i+k]` and `b[j:j+k]` agree elementwise. -/
def SliceEq (a b : List α) (i j k : ℕ) : Prop :=
  ∀ t, t < k → elemEq a b (i + t) (j + t) = true

/-- The blocks, walked from position `(ci, cj)` to `(ehi, ejhi)`, are ordered
and non-overlapping, every block matches elementwise, every block is
non-empty, and every gap rectangle between consecutive blocks (and before the
first and after the last) holds no equal pair. -/
def Chain (a b : List α) : ℕ → ℕ → List (ℕ × ℕ × ℕ) → ℕ → ℕ → Prop
  | ci, cj, [], ehi, ejhi => ci ≤ ehi ∧ cj ≤ ejhi ∧ GapFree a b ci ehi cj ejhi
  | ci, cj, blk :: rest, ehi, ejhi =>
    ci ≤ blk.1 ∧ cj ≤ blk.2.1 ∧ 0 < blk.2.2 ∧ GapFree a b ci blk.1 cj blk.2.1 ∧
      SliceEq a b blk.1 blk.2.1 blk.2.2 ∧
      Chain a b (blk.1 + blk.2.2) (blk.2.1 + blk.2.2) rest ehi ejhi

/-- Two consecutive merged blocks are never adjacent on both axes. -/
def NonAdj (x y : ℕ × ℕ × ℕ) : Prop :=
  ¬(x.1 + x.2.2 = y.1 ∧ x.2.1 + x.2.2 = y.2.1)

/-! ### Range tiling: the partition property of opcode streams -/

/-- The `i`-ranges of the opcodes tile `[s, e)` contiguously and
monotonically, in emission order. -/
def TilesI : ℕ → List Opcode → ℕ → Prop
  | s, [], e => s = e
  | s, op :: rest, e => op.2.1 = s ∧ op.2.1 ≤ op.2.2.1 ∧ TilesI op.2.2.1 rest e

/-- The `j`-ranges of the opcodes tile `[s, e)` contiguously and
monotonically, in emission order. -/
def TilesJ : ℕ → List Opcode → ℕ → Prop
  | s, [], e => s = e
  | s, op :: rest, e => op.2.2.2.1 = s ∧ op.2.2.2.1 ≤ op.2.2.2.2 ∧ TilesJ op.2.2.2.2 rest e

/-- `old[i1:i2]` concatenated over the opcodes, in order. -/
def concatSlicesI (l : List α) : List Opcode → List α
  | [] => []
  | op :: rest => pySlice l op.2.1 op.2.2.1 ++ concatSlicesI l rest

/-- `new[j1:j2]` concatenated over the opcodes, in order. -/
def concatSlicesJ (l : List α) : List Opcode → List α
  | [] => []
  | op :: rest => pySlice l op.2.2.2.1 op.2.2.2.2 ++ concatSlicesJ l rest

/-- Position bounds of a block list relative to the walking state of
`generate_opcodes`, ending exactly at `e`. -/
def BlocksLe : ℕ → ℕ → List (ℕ × ℕ × ℕ) → ℕ × ℕ → Prop
  | i, j, [], e => i = e.1 ∧ j = e.2
  | i, j, blk :: rest, e =>
    i ≤ blk.1 ∧ j ≤ blk.2.1 ∧ BlocksLe (blk.1 + blk.2.2) (blk.2.1 + blk.2.2) rest e

/-! ### Tag-adjacency predicates on opcode streams -/

/-- Two adjacent opcodes do not carry the same tag. -/
def NeTag (x y : Opcode) : Prop := x.1 ≠ y.1

instance (x y : Opcode) : Decidable (NeTag x y) :=
  inferInstanceAs (Decidable (x.1 ≠ y.1))

/-- Two adjacent opcodes are not both `EQUAL`. -/
def NotBothEqual (x y : Opcode) : Prop := ¬(x.1 = Tag.equal ∧ y.1 = Tag.equal)

instance (x y : Opcode) : Decidable (NotBothEqual x y) :=
  inferInstanceAs (Decidable (¬(x.1 = Tag.equal ∧ y.1 = Tag.equal)))

/-- The per-block gap opcodes of `generate_opcodes`' loop, as one list. -/
def gapOps (c : Cruncher α) (a b : List α) (r : Bool) (i ai j bj : ℕ) : List Opcode :=
  if r ∧ (if i < ai ∧ j < bj then Tag.replace
      else if i < ai then Tag.delete
      else if j < bj then Tag.insert else Tag.count) = Tag.replace then
    refine_replace_block c a b i ai j bj
  else if (if i < ai ∧ j < bj then Tag.replace
      else if i < ai then Tag.delete
      else if j < bj then Tag.insert else Tag.count) ≠ Tag.count then
    [((if i < ai ∧ j < bj then Tag.replace
      else if i < ai then Tag.delete
      else if j < bj then Tag.insert else Tag.count), i, ai, j, bj)]
  else []

/-! ### The collapse manager: from the positional `set_diff_text` to a
direct per-opcode construction -/

/-- `applyStates` with an explicit starting display-line number; equal to
`applyStates` at `0` (`applyStates_eq`). -/
def applyStatesFrom (phs : List (ℕ × ℕ)) : ℕ → List String → List (String × Int)
  | _, [] => []
  | off, t :: rest =>
    (match phs.find? (fun q => q.1 = off) with
     | some q => (t, (q.2 : Int) + 1)
     | none => (t, -1)) :: applyStatesFrom phs (off + 1) rest

/-- Per-opcode bounds established by the tiling of `get_opcodes`, together
with the slice equality of `EQUAL` opcodes. -/
def OpBounds (old new : List String) (op : Opcode) : Prop :=
  op.2.1 ≤ op.2.2.1 ∧ op.2.2.1 ≤ old.length ∧
    op.2.2.2.1 ≤ op.2.2.2.2 ∧ op.2.2.2.2 ≤ new.length ∧
    (op.1 = Tag.equal →
      op.2.2.1 - op.2.1 = op.2.2.2.2 - op.2.2.2.1 ∧
        pySlice old op.2.1 op.2.2.1 = pySlice new op.2.2.2.1 op.2.2.2.2)

/-- The displayed streams, their placeholder states and the collapsed
sections of `set_diff_text`, built directly per opcode with the next section
index threaded through (`ci0`); `set_diff_text_eq_buildD` identifies this
with the positional construction of the source. -/
def buildD (old new : List String) :
    ℕ → List Opcode → List (String × Int) × List (String × Int) × List (List String)
  | _, [] => ([], [], [])
  | ci0, op :: rest =>
    let i1 := op.2.1
    let i2 := op.2.2.1
    let j1 := op.2.2.2.1
    let j2 := op.2.2.2.2
    let C := COLLAPSE_CONTEXT_LINES
    if op.1 = Tag.equal ∧ COLLAPSE_THRESHOLD_LINES < i2 - i1 then
      let bd := buildD old new (ci0 + 1) rest
      ((pySlice old i1 (i1 + C)).map (fun t => (t, (-1 : Int))) ++
          (placeholderText (i2 - i1 - 2 * C), (ci0 : Int) + 1) ::
            (pySlice old (i2 - C) i2).map (fun t => (t, (-1 : Int))) ++ bd.1,
        (pySlice new j1 (j1 + C)).map (fun t => (t, (-1 : Int))) ++
          (placeholderText (i2 - i1 - 2 * C), (ci0 : Int) + 1) ::
            (pySlice new (j2 - C) j2).map (fun t => (t, (-1 : Int))) ++ bd.2.1,
        pySlice old (i1 + C) (i2 - C) :: bd.2.2)
    else
      let bd := buildD old new ci0 rest
      ((pySlice old i1 i2).map (fun t => (t, (-1 : Int))) ++ bd.1,
        (pySlice new j1 j2).map (fun t => (t, (-1 : Int))) ++ bd.2.1,
        bd.2.2)

/-! ### Placeholder structure of a displayed document -/

/-- Structure of a displayed document relative to the collapsed-section
suffix it references: the blocks with positive `userState` are exactly one
placeholder per section, in order, carrying states `k+1, k+2, ...`, each with
the caption for its section's line count; every other block has state `-1`. -/
def PhD : ℕ → List (List String) → List (String × Int) → Prop
  | _, [], doc => ∀ bl ∈ doc, bl.2 = -1
  | k, sec :: rest, doc =>
      ∃ pre suf, doc = pre ++ (placeholderText sec.length, (k : Int) + 1) :: suf ∧
        (∀ bl ∈ pre, bl.2 = -1) ∧ PhD (k + 1) rest suf

/-! ### Generic fold facts -/

theorem foldl_inv {β γ : Type _} (f : β → γ → β) (P : β → Prop) :
    ∀ (l : List γ) (init : β), P init → (∀ s x, x ∈ l → P s → P (f s x)) →
      P (l.foldl f init) := by
  intro l
  induction l with
  | nil => intro init h0 _; exact h0
  | cons x l ih =>
    intro init h0 hstep
    exact ih (f init x) (hstep init x (List.mem_cons_self x l) h0)
      (fun s y hy => hstep s y (List.mem_cons_of_mem x hy))

theorem foldl_mono {β γ : Type _} (f : β → γ → β) (meas : β → ℕ)
    (hmono : ∀ s x, meas s ≤ meas (f s x)) :
    ∀ (l : List γ) (init : β), meas init ≤ meas (l.foldl f init) := by
  intro l
  induction l with
  | nil => intro init; exact Nat.le_refl _
  | cons x l ih =>
    intro init
    exact Nat.le_trans (hmono init x) (ih (f init x))

theorem foldl_reaches {β γ : Type _} (f : β → γ → β) (meas : β → ℕ) (g : γ → ℕ)
    (hmono : ∀ s x, meas s ≤ meas (f s x)) (hstep : ∀ s x, g x ≤ meas (f s x)) :
    ∀ (l : List γ) (init : β) (x : γ), x ∈ l → g x ≤ meas (l.foldl f init) := by
  intro l
  induction l with
  | nil => intro init x hx; cases hx
  | cons y l ih =>
    intro init x hx
    rcases List.mem_cons.mp hx with h | h
    · subst h
      exact Nat.le_trans (hstep init x) (foldl_mono f meas hmono l (f init x))
    · exact ih (f init y) x h

theorem searchStep_inv {c : Cruncher α} {a b : List α} {i1 i2 j1 j2 : ℕ}
    {s : RSearch} {i j : ℕ} (hi1 : i1 ≤ i) (hi2 : i < i2) (hj1 : j1 ≤ j) (hj2 : j < j2)
    (h : SearchInv a b i1 i2 j1 j2 s) :
    SearchInv a b i1 i2 j1 j2 (searchStep c a b s i j) := by
  obtain ⟨h1, h2, h3⟩ := h
  unfold searchStep
  rcases hga : a.get? i with _ | ai
  · exact ⟨h1, h2, h3⟩
  rcases hgb : b.get? j with _ | bj
  · exact ⟨h1, h2, h3⟩
  simp only []
  by_cases heq : ai = bj
  · simp only [if_pos heq]
    by_cases hnone : s.eq = none
    · simp only [if_pos hnone]
      refine ⟨h1, h2, ?_⟩
      intro ei ej hei
      simp only [hnone] at hei
      injection hei with hei
      injection hei with he1 he2
      subst he1; subst he2
      refine ⟨hi1, hi2, hj1, hj2, ?_⟩
      unfold elemEq
      rw [hga, hgb]
      simp [heq]
    · simp only [if_neg hnone]
      exact ⟨h1, h2, h3⟩
  · simp only [if_neg heq]
    by_cases hrq : Frac.le (c.realQuick ai bj) s.bestR
    · simp only [if_pos hrq]; exact ⟨h1, h2, h3⟩
    simp only [if_neg hrq]
    by_cases hq : Frac.le (c.quick ai bj) s.bestR
    · simp only [if_pos hq]; exact ⟨h1, h2, h3⟩
    simp only [if_neg hq]
    by_cases hr : Frac.lt s.bestR (c.full ai bj)
    · simp only [if_pos hr]
      refine ⟨?_, ?_, h3⟩
      · intro bi bj' hb
        injection hb with hb
        injection hb with hb1 hb2
        subst hb1; subst hb2
        exact ⟨hi1, hi2, hj1, hj2⟩
      · intro hb; cases hb
    · simp only [if_neg hr]
      exact ⟨h1, h2, h3⟩

theorem refineSearch_inv (c : Cruncher α) (a b : List α) (i1 i2 j1 j2 : ℕ) :
    SearchInv a b i1 i2 j1 j2 (refineSearch c a b i1 i2 j1 j2) := by
  unfold refineSearch
  apply foldl_inv
  · constructor
    · intro bi bj h; cases h
    constructor
    · intro _; rfl
    · intro ei ej h; cases h
  · intro s j hj hs
    have hj' := List.mem_range'_1.mp hj
    apply foldl_inv
    · exact hs
    · intro s' i hi hs'
      have hi' := List.mem_range'_1.mp hi
      exact searchStep_inv hi'.1 (by omega) hj'.1 (by omega) hs'

theorem initBestR_lt_cutoff : Frac.lt initBestR REFINE_CUTOFF := by decide

/-- Whenever `_refine_replace_block` picks a synchronization point, it lies
strictly inside both index ranges; the flag is `true` exactly when the pair
was recorded as identical. -/
theorem chooseSync_bounds {c : Cruncher α} {a b : List α} {i1 i2 j1 j2 : ℕ}
    {bi bj : ℕ} {e : Bool}
    (h : chooseSync (refineSearch c a b i1 i2 j1 j2) = some (bi, bj, e)) :
    i1 ≤ bi ∧ bi < i2 ∧ j1 ≤ bj ∧ bj < j2 ∧
      (e = true → elemEq a b bi bj = true) := by
  obtain ⟨h1, h2, h3⟩ := refineSearch_inv c a b i1 i2 j1 j2
  unfold chooseSync at h
  by_cases hlt : Frac.lt (refineSearch c a b i1 i2 j1 j2).bestR REFINE_CUTOFF
  · simp only [if_pos hlt] at h
    rcases hq : (refineSearch c a b i1 i2 j1 j2).eq with _ | ⟨ei, ej⟩
    · rw [hq] at h; cases h
    · rw [hq] at h
      injection h with h
      injection h with hb h
      injection h with hb2 h
      subst hb; subst hb2; subst h
      obtain ⟨q1, q2, q3, q4, q5⟩ := h3 ei ej hq
      exact ⟨q1, q2, q3, q4, fun _ => q5⟩
  · simp only [if_neg hlt] at h
    rcases hq : (refineSearch c a b i1 i2 j1 j2).best with _ | ⟨bi', bj'⟩
    · rw [hq] at h; cases h
    · rw [hq] at h
      injection h with h
      injection h with hb h
      injection h with hb2 h
      subst hb; subst hb2; subst h
      obtain ⟨q1, q2, q3, q4⟩ := h1 bi' bj' hq
      refine ⟨q1, q2, q3, q4, ?_⟩
      intro he; cases he

/-- Fuel does not matter for `refineGo` once it is at least the sum of the
two range lengths. -/
theorem refineGo_stable (c : Cruncher α) (a b : List α) :
    ∀ (n f1 f2 i1 i2 j1 j2 : ℕ),
      (i2 - i1) + (j2 - j1) ≤ n → (i2 - i1) + (j2 - j1) ≤ f1 →
      (i2 - i1) + (j2 - j1) ≤ f2 →
      refineGo c a b f1 i1 i2 j1 j2 = refineGo c a b f2 i1 i2 j1 j2 := by
  intro n
  induction n with
  | zero =>
    intro f1 f2 i1 i2 j1 j2 hn _ _
    have h1 : i2 ≤ i1 := by omega
    cases f1 <;> cases f2 <;> simp [refineGo, if_pos h1]
  | succ n ih =>
    intro f1 f2 i1 i2 j1 j2 hn h1 h2
    by_cases hb1 : i2 ≤ i1
    · cases f1 <;> cases f2 <;> simp [refineGo, if_pos hb1]
    by_cases hb2 : j2 ≤ j1
    · cases f1 <;> cases f2 <;> simp [refineGo, if_neg hb1, if_pos hb2]
    have hf1 : ∃ g1, f1 = g1 + 1 := ⟨f1 - 1, by omega⟩
    have hf2 : ∃ g2, f2 = g2 + 1 := ⟨f2 - 1, by omega⟩
    obtain ⟨g1, rfl⟩ := hf1
    obtain ⟨g2, rfl⟩ := hf2
    simp only [refineGo, if_neg hb1, if_neg hb2]
    rcases hc : chooseSync (refineSearch c a b i1 i2 j1 j2) with _ | ⟨bi, bj, e⟩
    · rfl
    · obtain ⟨q1, q2, q3, q4, _⟩ := chooseSync_bounds hc
      have e1 : refineGo c a b g1 i1 bi j1 bj = refineGo c a b g2 i1 bi j1 bj := by
        apply ih <;> omega
      have e2 : refineGo c a b g1 (bi + 1) i2 (bj + 1) j2 =
          refineGo c a b g2 (bi + 1) i2 (bj + 1) j2 := by
        apply ih <;> omega
      simp only [e1, e2]

/-- The fuel-free recurrence of `_refine_replace_block`: the embedding
satisfies exactly the source's recursion. -/
theorem refine_unfold (c : Cruncher α) (a b : List α) (i1 i2 j1 j2 : ℕ) :
    refine_replace_block c a b i1 i2 j1 j2 =
      if i2 ≤ i1 then if j1 < j2 then [(Tag.insert, i1, i1, j1, j2)] else []
      else if j2 ≤ j1 then if i1 < i2 then [(Tag.delete, i1, i2, j1, j1)] else []
      else
        match chooseSync (refineSearch c a b i1 i2 j1 j2) with
        | none => [(Tag.replace, i1, i2, j1, j2)]
        | some (bi, bj, isEq) =>
          refine_replace_block c a b i1 bi j1 bj ++
            ((if isEq then Tag.equal else Tag.replace), bi, bi + 1, bj, bj + 1) ::
              refine_replace_block c a b (bi + 1) i2 (bj + 1) j2 := by
  by_cases hb1 : i2 ≤ i1
  · unfold refine_replace_block
    cases hm : (i2 - i1) + (j2 - j1) <;> simp [refineGo, if_pos hb1]
  by_cases hb2 : j2 ≤ j1
  · unfold refine_replace_block
    cases hm : (i2 - i1) + (j2 - j1) <;> simp [refineGo, if_neg hb1, if_pos hb2]
  have hm : ∃ g, (i2 - i1) + (j2 - j1) = g + 1 := ⟨(i2 - i1) + (j2 - j1) - 1, by omega⟩
  obtain ⟨g, hg⟩ := hm
  conv_lhs => unfold refine_replace_block
  rw [hg]
  simp only [refineGo, if_neg hb1, if_neg hb2]
  rcases hc : chooseSync (refineSearch c a b i1 i2 j1 j2) with _ | ⟨bi, bj, e⟩
  · rfl
  · obtain ⟨q1, q2, q3, q4, _⟩ := chooseSync_bounds hc
    have e1 : refineGo c a b g i1 bi j1 bj = refine_replace_block c a b i1 bi j1 bj := by
      unfold refine_replace_block
      apply refineGo_stable c a b ((bi - i1) + (bj - j1)) <;> omega
    have e2 : refineGo c a b g (bi + 1) i2 (bj + 1) j2 =
        refine_replace_block c a b (bi + 1) i2 (bj + 1) j2 := by
      unfold refine_replace_block
      apply refineGo_stable c a b ((i2 - (bi + 1)) + (j2 - (bj + 1))) <;> omega
    simp only [e1, e2]

/-! ### Facts about the matching-block search -/

theorem matchLen_unfold (a b : List α) (ahi bhi i j : ℕ) :
    matchLen a b ahi bhi i j =
      if i < ahi ∧ j < bhi ∧ elemEq a b i j then matchLen a b ahi bhi (i + 1) (j + 1) + 1
      else 0 := by
  unfold matchLen
  rcases hm : ahi - i with _ | f
  · have hni : ¬i < ahi := by omega
    simp only [mlGo]
    rw [if_neg (by tauto)]
  · simp only [mlGo]
    have hf : ahi - (i + 1) = f := by omega
    rw [hf]

theorem matchLen_le (a b : List α) (ahi bhi : ℕ) :
    ∀ n i j, ahi - i ≤ n →
      matchLen a b ahi bhi i j ≤ ahi - i ∧ matchLen a b ahi bhi i j ≤ bhi - j := by
  intro n
  induction n with
  | zero =>
    intro i j hn
    rw [matchLen_unfold, if_neg (by omega)]
    omega
  | succ n ih =>
    intro i j hn
    rw [matchLen_unfold]
    by_cases hc : i < ahi ∧ j < bhi ∧ elemEq a b i j
    · rw [if_pos hc]
      have := ih (i + 1) (j + 1) (by omega)
      omega
    · rw [if_neg hc]; omega

theorem matchLen_elem (a b : List α) (ahi bhi : ℕ) :
    ∀ n i j, ahi - i ≤ n → ∀ t, t < matchLen a b ahi bhi i j →
      elemEq a b (i + t) (j + t) = true := by
  intro n
  induction n with
  | zero =>
    intro i j hn t ht
    rw [matchLen_unfold, if_neg (by omega)] at ht
    omega
  | succ n ih =>
    intro i j hn t ht
    rw [matchLen_unfold] at ht
    by_cases hc : i < ahi ∧ j < bhi ∧ elemEq a b i j
    · rw [if_pos hc] at ht
      rcases t with _ | t
      · simpa using hc.2.2
      · have := ih (i + 1) (j + 1) (by omega) t (by omega)
        have e1 : i + (t + 1) = (i + 1) + t := by omega
        have e2 : j + (t + 1) = (j + 1) + t := by omega
        rw [e1, e2]; exact this
    · rw [if_neg hc] at ht; omega

theorem matchLen_pos (a b : List α) (ahi bhi i j : ℕ)
    (h1 : i < ahi) (h2 : j < bhi) (h3 : elemEq a b i j = true) :
    0 < matchLen a b ahi bhi i j := by
  rw [matchLen_unfold, if_pos ⟨h1, h2, h3⟩]
  omega

theorem flm_bounds (a b : List α) (alo ahi blo bhi : ℕ) :
    find_longest_match a b alo ahi blo bhi = (alo, blo, 0) ∨
      (alo ≤ (find_longest_match a b alo ahi blo bhi).1 ∧
        (find_longest_match a b alo ahi blo bhi).1 < ahi ∧
        blo ≤ (find_longest_match a b alo ahi blo bhi).2.1 ∧
        (find_longest_match a b alo ahi blo bhi).2.1 < bhi ∧
        (find_longest_match a b alo ahi blo bhi).2.2 =
          matchLen a b ahi bhi (find_longest_match a b alo ahi blo bhi).1
            (find_longest_match a b alo ahi blo bhi).2.1 ∧
        0 < (find_longest_match a b alo ahi blo bhi).2.2) := by
  unfold find_longest_match
  apply foldl_inv _
    (fun best => best = (alo, blo, 0) ∨
      (alo ≤ best.1 ∧ best.1 < ahi ∧ blo ≤ best.2.1 ∧ best.2.1 < bhi ∧
        best.2.2 = matchLen a b ahi bhi best.1 best.2.1 ∧ 0 < best.2.2))
  · left; rfl
  · intro s i hi hs
    have hi' := List.mem_range'_1.mp hi
    apply foldl_inv _
      (fun best => best = (alo, blo, 0) ∨
        (alo ≤ best.1 ∧ best.1 < ahi ∧ blo ≤ best.2.1 ∧ best.2.1 < bhi ∧
          best.2.2 = matchLen a b ahi bhi best.1 best.2.1 ∧ 0 < best.2.2))
    · exact hs
    · intro s' j hj hs'
      have hj' := List.mem_range'_1.mp hj
      unfold flmStep
      by_cases hlt : s'.2.2 < matchLen a b ahi bhi i j
      · rw [if_pos hlt]
        right
        exact ⟨hi'.1, by show i < ahi; omega, hj'.1, by show j < bhi; omega, rfl,
          by show 0 < matchLen a b ahi bhi i j; omega⟩
      · rw [if_neg hlt]
        exact hs'

/-- Bounds for a successful longest-match search: the block lies inside the
rectangle and its elements match pairwise. -/
theorem flm_pos_bounds (a b : List α) (alo ahi blo bhi : ℕ)
    (h : 0 < (find_longest_match a b alo ahi blo bhi).2.2) :
    alo ≤ (find_longest_match a b alo ahi blo bhi).1 ∧
    (find_longest_match a b alo ahi blo bhi).1 +
      (find_longest_match a b alo ahi blo bhi).2.2 ≤ ahi ∧
    blo ≤ (find_longest_match a b alo ahi blo bhi).2.1 ∧
    (find_longest_match a b alo ahi blo bhi).2.1 +
      (find_longest_match a b alo ahi blo bhi).2.2 ≤ bhi ∧
    (∀ t, t < (find_longest_match a b alo ahi blo bhi).2.2 →
      elemEq a b ((find_longest_match a b alo ahi blo bhi).1 + t)
        ((find_longest_match a b alo ahi blo bhi).2.1 + t) = true) := by
  rcases flm_bounds a b alo ahi blo bhi with hz | ⟨q1, q2, q3, q4, q5, q6⟩
  · rw [hz] at h; simp at h
  · have hle := matchLen_le a b ahi bhi (ahi - (find_longest_match a b alo ahi blo bhi).1)
      (find_longest_match a b alo ahi blo bhi).1
      (find_longest_match a b alo ahi blo bhi).2.1 (Nat.le_refl _)
    have helem := matchLen_elem a b ahi bhi (ahi - (find_longest_match a b alo ahi blo bhi).1)
      (find_longest_match a b alo ahi blo bhi).1
      (find_longest_match a b alo ahi blo bhi).2.1 (Nat.le_refl _)
    refine ⟨q1, by omega, q3, by omega, ?_⟩
    intro t ht
    exact helem t (by omega)

/-- The search result dominates the match length at every pair of the
rectangle. -/
theorem flm_max (a b : List α) (alo ahi blo bhi : ℕ) (i0 j0 : ℕ)
    (h1 : alo ≤ i0) (h2 : i0 < ahi) (h3 : blo ≤ j0) (h4 : j0 < bhi) :
    matchLen a b ahi bhi i0 j0 ≤ (find_longest_match a b alo ahi blo bhi).2.2 := by
  unfold find_longest_match
  have hstep_mono : ∀ (i : ℕ) (s : ℕ × ℕ × ℕ) (j : ℕ),
      s.2.2 ≤ (flmStep a b ahi bhi i s j).2.2 := by
    intro i s j
    unfold flmStep
    by_cases hlt : s.2.2 < matchLen a b ahi bhi i j
    · rw [if_pos hlt]; show s.2.2 ≤ matchLen a b ahi bhi i j; omega
    · rw [if_neg hlt]
  have hstep_ge : ∀ (i : ℕ) (s : ℕ × ℕ × ℕ) (j : ℕ),
      matchLen a b ahi bhi i j ≤ (flmStep a b ahi bhi i s j).2.2 := by
    intro i s j
    unfold flmStep
    by_cases hlt : s.2.2 < matchLen a b ahi bhi i j
    · rw [if_pos hlt]
    · rw [if_neg hlt]; omega
  apply foldl_reaches
    (fun (best : ℕ × ℕ × ℕ) (i : ℕ) =>
      (List.range' blo (bhi - blo)).foldl (flmStep a b ahi bhi i) best)
    (fun best => best.2.2) (fun i => matchLen a b ahi bhi i j0)
  · intro s i
    exact foldl_mono (flmStep a b ahi bhi i) (fun best => best.2.2) (hstep_mono i) _ s
  · intro s i
    apply foldl_reaches (flmStep a b ahi bhi i) (fun best => best.2.2)
      (fun j => matchLen a b ahi bhi i j) (hstep_mono i) (hstep_ge i)
    exact List.mem_range'_1.mpr ⟨h3, by omega⟩
  · exact List.mem_range'_1.mpr ⟨h1, by omega⟩

/-- If the search finds nothing, the rectangle holds no equal pair at all. -/
theorem flm_zero_gapfree (a b : List α) (alo ahi blo bhi : ℕ)
    (h : (find_longest_match a b alo ahi blo bhi).2.2 = 0) :
    ∀ i j, alo ≤ i → i < ahi → blo ≤ j → j < bhi → elemEq a b i j = false := by
  intro i j h1 h2 h3 h4
  by_contra hne
  have heq : elemEq a b i j = true := by
    cases helem : elemEq a b i j
    · exact absurd helem hne
    · rfl
  have := flm_max a b alo ahi blo bhi i j h1 h2 h3 h4
  have := matchLen_pos a b ahi bhi i j h2 h4 heq
  omega

theorem mbGo_stable (a b : List α) :
    ∀ (n f1 f2 alo ahi blo bhi : ℕ),
      (ahi - alo) + (bhi - blo) ≤ n → (ahi - alo) + (bhi - blo) ≤ f1 →
      (ahi - alo) + (bhi - blo) ≤ f2 →
      mbGo a b f1 alo ahi blo bhi = mbGo a b f2 alo ahi blo bhi := by
  intro n
  induction n with
  | zero =>
    intro f1 f2 alo ahi blo bhi hn _ _
    have hz : (find_longest_match a b alo ahi blo bhi).2.2 = 0 := by
      rcases flm_bounds a b alo ahi blo bhi with hb | hb
      · rw [hb]
      · omega
    cases f1 <;> cases f2 <;> simp [mbGo, hz]
  | succ n ih =>
    intro f1 f2 alo ahi blo bhi hn h1 h2
    by_cases hz : 0 < (find_longest_match a b alo ahi blo bhi).2.2
    · obtain ⟨q1, q2, q3, q4, _⟩ := flm_pos_bounds a b alo ahi blo bhi hz
      have hf1 : ∃ g1, f1 = g1 + 1 := ⟨f1 - 1, by omega⟩
      have hf2 : ∃ g2, f2 = g2 + 1 := ⟨f2 - 1, by omega⟩
      obtain ⟨g1, rfl⟩ := hf1
      obtain ⟨g2, rfl⟩ := hf2
      simp only [mbGo, if_pos hz]
      have e1 := ih g1 g2 alo (find_longest_match a b alo ahi blo bhi).1 blo
        (find_longest_match a b alo ahi blo bhi).2.1 (by omega) (by omega) (by omega)
      have e2 := ih g1 g2
        ((find_longest_match a b alo ahi blo bhi).1 + (find_longest_match a b alo ahi blo bhi).2.2)
        ahi
        ((find_longest_match a b alo ahi blo bhi).2.1 + (find_longest_match a b alo ahi blo bhi).2.2)
        bhi (by omega) (by omega) (by omega)
      rw [e1, e2]
    · have hz' : ¬0 < (find_longest_match a b alo ahi blo bhi).2.2 := hz
      cases f1 <;> cases f2 <;> simp [mbGo, if_neg hz']

theorem matchingBlocksRec_unfold (a b : List α) (alo ahi blo bhi : ℕ) :
    matchingBlocksRec a b alo ahi blo bhi =
      if 0 < (find_longest_match a b alo ahi blo bhi).2.2 then
        matchingBlocksRec a b alo (find_longest_match a b alo ahi blo bhi).1 blo
            (find_longest_match a b alo ahi blo bhi).2.1 ++
          (find_longest_match a b alo ahi blo bhi) ::
            matchingBlocksRec a b
              ((find_longest_match a b alo ahi blo bhi).1 +
                (find_longest_match a b alo ahi blo bhi).2.2) ahi
              ((find_longest_match a b alo ahi blo bhi).2.1 +
                (find_longest_match a b alo ahi blo bhi).2.2) bhi
      else [] := by
  by_cases hz : 0 < (find_longest_match a b alo ahi blo bhi).2.2
  · obtain ⟨q1, q2, q3, q4, _⟩ := flm_pos_bounds a b alo ahi blo bhi hz
    rw [if_pos hz]
    unfold matchingBlocksRec
    have hm : ∃ g, (ahi - alo) + (bhi - blo) = g + 1 :=
      ⟨(ahi - alo) + (bhi - blo) - 1, by omega⟩
    obtain ⟨g, hg⟩ := hm
    rw [hg]
    simp only [mbGo, if_pos hz]
    rw [mbGo_stable a b ((ahi - alo) + (bhi - blo)) g
        (((find_longest_match a b alo ahi blo bhi).1 - alo) +
          ((find_longest_match a b alo ahi blo bhi).2.1 - blo))
        alo (find_longest_match a b alo ahi blo bhi).1 blo
        (find_longest_match a b alo ahi blo bhi).2.1 (by omega) (by omega) (by omega),
      mbGo_stable a b ((ahi - alo) + (bhi - blo)) g
        ((ahi - ((find_longest_match a b alo ahi blo bhi).1 +
            (find_longest_match a b alo ahi blo bhi).2.2)) +
          (bhi - ((find_longest_match a b alo ahi blo bhi).2.1 +
            (find_longest_match a b alo ahi blo bhi).2.2)))
        ((find_longest_match a b alo ahi blo bhi).1 +
          (find_longest_match a b alo ahi blo bhi).2.2) ahi
        ((find_longest_match a b alo ahi blo bhi).2.1 +
          (find_longest_match a b alo ahi blo bhi).2.2) bhi
        (by omega) (by omega) (by omega)]
  · rw [if_neg hz]
    unfold matchingBlocksRec
    cases hg : (ahi - alo) + (bhi - blo) <;> simp [mbGo, if_neg hz]

theorem Chain_append_block (a b : List α) (bi bj k ehi ejhi : ℕ)
    (hk : 0 < k) (hs : SliceEq a b bi bj k) :
    ∀ (L : List (ℕ × ℕ × ℕ)) (ci cj : ℕ), Chain a b ci cj L bi bj →
      ∀ (R : List (ℕ × ℕ × ℕ)), Chain a b (bi + k) (bj + k) R ehi ejhi →
        Chain a b ci cj (L ++ (bi, bj, k) :: R) ehi ejhi := by
  intro L
  induction L with
  | nil =>
    intro ci cj hL R hR
    obtain ⟨h1, h2, h3⟩ := hL
    exact ⟨h1, h2, hk, h3, hs, hR⟩
  | cons blk L ih =>
    intro ci cj hL R hR
    obtain ⟨h1, h2, h3, h4, h5, h6⟩ := hL
    exact ⟨h1, h2, h3, h4, h5, ih _ _ h6 R hR⟩

theorem chain_of_matchingBlocksRec (a b : List α) :
    ∀ (n alo ahi blo bhi : ℕ), (ahi - alo) + (bhi - blo) ≤ n →
      alo ≤ ahi → blo ≤ bhi →
      Chain a b alo blo (matchingBlocksRec a b alo ahi blo bhi) ahi bhi := by
  intro n
  induction n with
  | zero =>
    intro alo ahi blo bhi hn ha hb
    rw [matchingBlocksRec_unfold]
    have hz : ¬0 < (find_longest_match a b alo ahi blo bhi).2.2 := by
      rcases flm_bounds a b alo ahi blo bhi with hh | hh
      · rw [hh]; simp
      · omega
    rw [if_neg hz]
    refine ⟨ha, hb, ?_⟩
    exact flm_zero_gapfree a b alo ahi blo bhi (by omega)
  | succ n ih =>
    intro alo ahi blo bhi hn ha hb
    rw [matchingBlocksRec_unfold]
    by_cases hz : 0 < (find_longest_match a b alo ahi blo bhi).2.2
    · rw [if_pos hz]
      obtain ⟨q1, q2, q3, q4, q5⟩ := flm_pos_bounds a b alo ahi blo bhi hz
      apply Chain_append_block a b _ _ _ _ _ hz q5
      · exact ih alo (find_longest_match a b alo ahi blo bhi).1 blo
          (find_longest_match a b alo ahi blo bhi).2.1 (by omega) q1 q3
      · exact ih _ ahi _ bhi (by omega) (by omega) (by omega)
    · rw [if_neg hz]
      refine ⟨ha, hb, ?_⟩
      exact flm_zero_gapfree a b alo ahi blo bhi (by omega)

theorem mergeBlocks_spec (a b : List α) (ehi ejhi : ℕ) :
    ∀ (blocks : List (ℕ × ℕ × ℕ)) (ai aj ak ci cj : ℕ),
      ci ≤ ai → cj ≤ aj → GapFree a b ci ai cj aj → SliceEq a b ai aj ak →
      (ak = 0 → ai = ci ∧ aj = cj) →
      Chain a b (ai + ak) (aj + ak) blocks ehi ejhi →
      Chain a b ci cj (mergeBlocks (ai, aj, ak) blocks) ehi ejhi ∧
        List.Chain' NonAdj (mergeBlocks (ai, aj, ak) blocks) ∧
        (∀ blk ∈ mergeBlocks (ai, aj, ak) blocks, 0 < blk.2.2) ∧
        (0 < ak → mergeBlocks (ai, aj, ak) blocks = [] ∨
          ∃ k' rest, mergeBlocks (ai, aj, ak) blocks = (ai, aj, k') :: rest ∧ ak ≤ k') := by
  intro blocks
  induction blocks with
  | nil =>
    intro ai aj ak ci cj h1 h2 h3 h4 h5 h6
    by_cases hk : ak ≠ 0
    · simp only [mergeBlocks, if_pos hk]
      refine ⟨⟨h1, h2, by show 0 < ak; omega, h3, h4, h6⟩, ?_, ?_, ?_⟩
      · exact List.chain'_singleton _
      · intro blk hblk
        rcases List.mem_singleton.mp hblk with rfl
        show 0 < ak
        omega
      · intro h0
        right
        exact ⟨ak, [], rfl, Nat.le_refl _⟩
    · simp only [mergeBlocks, if_neg hk]
      push_neg at hk
      obtain ⟨he1, he2⟩ := h5 hk
      subst hk
      simp only [Nat.add_zero] at h6
      refine ⟨?_, List.chain'_nil, ?_, ?_⟩
      · rw [← he1, ← he2]; exact h6
      · intro blk hblk; simp at hblk
      · exact fun h0 => absurd h0 (Nat.lt_irrefl 0)
  | cons blk rest ih =>
    intro ai aj ak ci cj h1 h2 h3 h4 h5 h6
    obtain ⟨g1, g2, g3, g4, g5, g6⟩ := h6
    by_cases hadj : ai + ak = blk.1 ∧ aj + ak = blk.2.1
    · have hm : mergeBlocks (ai, aj, ak) (blk :: rest) =
          mergeBlocks (ai, aj, ak + blk.2.2) rest := by
        cases blk
        simp only [mergeBlocks]
        rw [if_pos hadj]
      rw [hm]
      have hslice : SliceEq a b ai aj (ak + blk.2.2) := by
        intro t ht
        by_cases htk : t < ak
        · exact h4 t htk
        · have e1 : ai + t = blk.1 + (t - ak) := by omega
          have e2 : aj + t = blk.2.1 + (t - ak) := by omega
          rw [e1, e2]
          exact g5 (t - ak) (by omega)
      have hchain : Chain a b (ai + (ak + blk.2.2)) (aj + (ak + blk.2.2)) rest ehi ejhi := by
        have e1 : ai + (ak + blk.2.2) = blk.1 + blk.2.2 := by omega
        have e2 : aj + (ak + blk.2.2) = blk.2.1 + blk.2.2 := by omega
        rw [e1, e2]; exact g6
      obtain ⟨r1, r2, r3, r4⟩ := ih ai aj (ak + blk.2.2) ci cj h1 h2 h3 hslice
        (by intro hzz; omega) hchain
      refine ⟨r1, r2, r3, ?_⟩
      intro h0
      rcases r4 (by omega) with r4' | ⟨k', rest', hr, hk'⟩
      · exact Or.inl r4'
      · exact Or.inr ⟨k', rest', hr, by omega⟩
    · have hnadj : ¬(ai + ak = blk.1 ∧ aj + ak = blk.2.1) := hadj
      by_cases hk : ak ≠ 0
      · have hm : mergeBlocks (ai, aj, ak) (blk :: rest) =
            (ai, aj, ak) :: mergeBlocks blk rest := by
          cases blk
          simp only [mergeBlocks]
          rw [if_neg hnadj, if_pos hk]
        rw [hm]
        have hbe : (blk.1, blk.2.1, blk.2.2) = blk := rfl
        obtain ⟨r1, r2, r3, r4⟩ := ih blk.1 blk.2.1 blk.2.2 (ai + ak) (aj + ak) g1 g2 g4 g5
          (by intro hzz; omega) (hbe ▸ g6)
        rw [hbe] at r1 r2 r3 r4
        refine ⟨⟨h1, h2, by show 0 < ak; omega, h3, h4, r1⟩, ?_, ?_, ?_⟩
        · rw [List.chain'_cons']
          refine ⟨?_, r2⟩
          intro y hy
          rcases r4 g3 with r4' | ⟨k', rest', hr, _⟩
          · rw [r4'] at hy; cases hy
          · rw [hr] at hy
            simp only [List.head?_cons, Option.mem_def, Option.some.injEq] at hy
            subst hy
            intro hcon
            exact hnadj ⟨hcon.1, hcon.2⟩
        · intro x hx
          rcases List.mem_cons.mp hx with rfl | hx
          · show 0 < ak
            omega
          · exact r3 x hx
        · intro h0
          right
          exact ⟨ak, _, rfl, Nat.le_refl _⟩
      · push_neg at hk
        obtain ⟨he1, he2⟩ := h5 hk
        subst hk
        have hm : mergeBlocks (ai, aj, 0) (blk :: rest) = mergeBlocks blk rest := by
          cases blk
          simp only [mergeBlocks]
          rw [if_neg hnadj]
          simp
        rw [hm]
        simp only [Nat.add_zero] at g1 g2 g4 g6 hnadj
        have hbe : (blk.1, blk.2.1, blk.2.2) = blk := rfl
        obtain ⟨r1, r2, r3, r4⟩ := ih blk.1 blk.2.1 blk.2.2 ci cj
          (he1 ▸ g1) (he2 ▸ g2) (he1 ▸ he2 ▸ g4) g5
          (by intro hzz; omega) (hbe ▸ g6)
        rw [hbe] at r1 r2 r3 r4
        exact ⟨r1, r2, r3, fun h0 => absurd h0 (Nat.lt_irrefl 0)⟩

/-- The specification of `get_matching_blocks`: a chain of ordered,
elementwise-matching, pairwise non-adjacent, non-empty blocks covering
`[0, len a) × [0, len b)` with equal-pair-free gaps, followed by the
sentinel. -/
theorem get_matching_blocks_spec (a b : List α) :
    ∃ merged, get_matching_blocks a b = merged ++ [(a.length, b.length, 0)] ∧
      Chain a b 0 0 merged a.length b.length ∧
      List.Chain' NonAdj merged ∧
      ∀ blk ∈ merged, 0 < blk.2.2 := by
  refine ⟨mergeBlocks (0, 0, 0) (matchingBlocksRec a b 0 a.length 0 b.length), rfl, ?_⟩
  have hchain := chain_of_matchingBlocksRec a b
    (a.length + b.length) 0 a.length 0 b.length (by omega) (by omega) (by omega)
  obtain ⟨r1, r2, r3, _⟩ := mergeBlocks_spec a b a.length b.length
    (matchingBlocksRec a b 0 a.length 0 b.length) 0 0 0 0 0
    (Nat.le_refl _) (Nat.le_refl _)
    (by intro i j hi1 hi2 hj1 hj2; omega)
    (by intro t ht; omega)
    (by intro _; exact ⟨rfl, rfl⟩)
    hchain
  exact ⟨r1, r2, r3⟩

theorem TilesI_append {e : ℕ} :
    ∀ (l1 : List Opcode) (s m : ℕ) (l2 : List Opcode),
      TilesI s l1 m → TilesI m l2 e → TilesI s (l1 ++ l2) e := by
  intro l1
  induction l1 with
  | nil =>
    intro s m l2 h1 h2
    obtain rfl : s = m := h1
    exact h2
  | cons op l1 ih =>
    intro s m l2 h1 h2
    obtain ⟨q1, q2, q3⟩ := h1
    exact ⟨q1, q2, ih _ _ _ q3 h2⟩

theorem TilesJ_append {e : ℕ} :
    ∀ (l1 : List Opcode) (s m : ℕ) (l2 : List Opcode),
      TilesJ s l1 m → TilesJ m l2 e → TilesJ s (l1 ++ l2) e := by
  intro l1
  induction l1 with
  | nil =>
    intro s m l2 h1 h2
    obtain rfl : s = m := h1
    exact h2
  | cons op l1 ih =>
    intro s m l2 h1 h2
    obtain ⟨q1, q2, q3⟩ := h1
    exact ⟨q1, q2, ih _ _ _ q3 h2⟩

theorem TilesI_le : ∀ (l : List Opcode) (s e : ℕ), TilesI s l e → s ≤ e := by
  intro l
  induction l with
  | nil => intro s e h; exact Nat.le_of_eq h
  | cons op l ih =>
    intro s e h
    obtain ⟨q1, q2, q3⟩ := h
    have := ih _ _ q3
    omega

theorem TilesJ_le : ∀ (l : List Opcode) (s e : ℕ), TilesJ s l e → s ≤ e := by
  intro l
  induction l with
  | nil => intro s e h; exact Nat.le_of_eq h
  | cons op l ih =>
    intro s e h
    obtain ⟨q1, q2, q3⟩ := h
    have := ih _ _ q3
    omega

theorem pySlice_append_drop (l : List α) (s e : ℕ) (h1 : s ≤ e) (h2 : e ≤ l.length) :
    pySlice l s e ++ l.drop e = l.drop s := by
  unfold pySlice
  have he : l.drop e = (l.drop s).drop (e - s) := by
    rw [List.drop_drop]
    congr 1
    omega
  rw [he]
  exact List.take_append_drop _ _

theorem concatSlicesI_eq_drop (l : List α) :
    ∀ (ops : List Opcode) (s : ℕ), TilesI s ops l.length →
      concatSlicesI l ops = l.drop s := by
  intro ops
  induction ops with
  | nil =>
    intro s h
    obtain rfl : s = l.length := h
    simp [concatSlicesI]
  | cons op rest ih =>
    intro s h
    obtain ⟨q1, q2, q3⟩ := h
    have hle := TilesI_le _ _ _ q3
    simp only [concatSlicesI]
    rw [ih _ q3, q1]
    exact pySlice_append_drop l s _ (q1 ▸ q2) hle

theorem concatSlicesJ_eq_drop (l : List α) :
    ∀ (ops : List Opcode) (s : ℕ), TilesJ s ops l.length →
      concatSlicesJ l ops = l.drop s := by
  intro ops
  induction ops with
  | nil =>
    intro s h
    obtain rfl : s = l.length := h
    simp [concatSlicesJ]
  | cons op rest ih =>
    intro s h
    obtain ⟨q1, q2, q3⟩ := h
    have hle := TilesJ_le _ _ _ q3
    simp only [concatSlicesJ]
    rw [ih _ q3, q1]
    exact pySlice_append_drop l s _ (q1 ▸ q2) hle

/-- The refined sub-stream of a replace block covers exactly the same index
ranges as the block. -/
theorem refine_tiles (c : Cruncher α) (a b : List α) :
    ∀ (n i1 i2 j1 j2 : ℕ), (i2 - i1) + (j2 - j1) ≤ n → i1 ≤ i2 → j1 ≤ j2 →
      TilesI i1 (refine_replace_block c a b i1 i2 j1 j2) i2 ∧
      TilesJ j1 (refine_replace_block c a b i1 i2 j1 j2) j2 := by
  intro n
  induction n with
  | zero =>
    intro i1 i2 j1 j2 hn hi hj
    rw [refine_unfold, if_pos (by omega)]
    have hj2 : ¬j1 < j2 := by omega
    rw [if_neg hj2]
    exact ⟨by show i1 = i2; omega, by show j1 = j2; omega⟩
  | succ n ih =>
    intro i1 i2 j1 j2 hn hi hj
    rw [refine_unfold]
    by_cases hb1 : i2 ≤ i1
    · rw [if_pos hb1]
      by_cases hb2 : j1 < j2
      · rw [if_pos hb2]
        exact ⟨⟨rfl, Nat.le_refl _, by show i1 = i2; omega⟩, ⟨rfl, by show j1 ≤ j2; omega, rfl⟩⟩
      · rw [if_neg hb2]
        exact ⟨by show i1 = i2; omega, by show j1 = j2; omega⟩
    · rw [if_neg hb1]
      by_cases hb2 : j2 ≤ j1
      · rw [if_pos hb2, if_pos (by omega)]
        exact ⟨⟨rfl, by show i1 ≤ i2; omega, rfl⟩, ⟨rfl, Nat.le_refl _, by show j1 = j2; omega⟩⟩
      · rw [if_neg hb2]
        rcases hc : chooseSync (refineSearch c a b i1 i2 j1 j2) with _ | ⟨bi, bj, e⟩
        · exact ⟨⟨rfl, by show i1 ≤ i2; omega, rfl⟩, ⟨rfl, by show j1 ≤ j2; omega, rfl⟩⟩
        · obtain ⟨q1, q2, q3, q4, _⟩ := chooseSync_bounds hc
          obtain ⟨ihL1, ihL2⟩ := ih i1 bi j1 bj (by omega) q1 q3
          obtain ⟨ihR1, ihR2⟩ := ih (bi + 1) i2 (bj + 1) j2 (by omega) (by omega) (by omega)
          constructor
          · apply TilesI_append _ _ bi
            · exact ihL1
            · exact ⟨rfl, by show bi ≤ bi + 1; omega, ihR1⟩
          · apply TilesJ_append _ _ bj
            · exact ihL2
            · exact ⟨rfl, by show bj ≤ bj + 1; omega, ihR2⟩

theorem chain_le (a b : List α) :
    ∀ (blocks : List (ℕ × ℕ × ℕ)) (ci cj ehi ejhi : ℕ),
      Chain a b ci cj blocks ehi ejhi → ci ≤ ehi ∧ cj ≤ ejhi := by
  intro blocks
  induction blocks with
  | nil => intro ci cj ehi ejhi h; exact ⟨h.1, h.2.1⟩
  | cons blk rest ih =>
    intro ci cj ehi ejhi h
    obtain ⟨q1, q2, _, _, _, q6⟩ := h
    have := ih _ _ _ _ q6
    omega

theorem blocksLe_of_chain (a b : List α) :
    ∀ (blocks : List (ℕ × ℕ × ℕ)) (ci cj ehi ejhi : ℕ),
      Chain a b ci cj blocks ehi ejhi →
      BlocksLe ci cj (blocks ++ [(ehi, ejhi, 0)]) (ehi, ejhi) := by
  intro blocks
  induction blocks with
  | nil =>
    intro ci cj ehi ejhi h
    exact ⟨h.1, h.2.1, by show ehi + 0 = ehi; omega, by show ejhi + 0 = ejhi; omega⟩
  | cons blk rest ih =>
    intro ci cj ehi ejhi h
    obtain ⟨q1, q2, _, _, _, q6⟩ := h
    exact ⟨q1, q2, ih _ _ _ _ q6⟩

theorem genGo_tiles (c : Cruncher α) (a b : List α) (r : Bool) :
    ∀ (blocks : List (ℕ × ℕ × ℕ)) (i j : ℕ),
      BlocksLe i j blocks (a.length, b.length) →
      TilesI i (genGo c a b r i j blocks) a.length ∧
      TilesJ j (genGo c a b r i j blocks) b.length := by
  intro blocks
  induction blocks with
  | nil =>
    intro i j h
    exact ⟨h.1, h.2⟩
  | cons blk rest ih =>
    intro i j h
    rcases blk with ⟨ai, bj, size⟩
    obtain ⟨q1, q2, q3⟩ := h
    have q1' : i ≤ ai := q1
    have q2' : j ≤ bj := q2
    simp only [genGo]
    obtain ⟨ih1, ih2⟩ := ih _ _ q3
    have hgap : TilesI i
        (if r ∧ (if i < ai ∧ j < bj then Tag.replace
          else if i < ai then Tag.delete
          else if j < bj then Tag.insert else Tag.count) = Tag.replace then
          refine_replace_block c a b i ai j bj
        else if (if i < ai ∧ j < bj then Tag.replace
          else if i < ai then Tag.delete
          else if j < bj then Tag.insert else Tag.count) ≠ Tag.count then
          [((if i < ai ∧ j < bj then Tag.replace
            else if i < ai then Tag.delete
            else if j < bj then Tag.insert else Tag.count), i, ai, j, bj)]
        else []) ai ∧
        TilesJ j
        (if r ∧ (if i < ai ∧ j < bj then Tag.replace
          else if i < ai then Tag.delete
          else if j < bj then Tag.insert else Tag.count) = Tag.replace then
          refine_replace_block c a b i ai j bj
        else if (if i < ai ∧ j < bj then Tag.replace
          else if i < ai then Tag.delete
          else if j < bj then Tag.insert else Tag.count) ≠ Tag.count then
          [((if i < ai ∧ j < bj then Tag.replace
            else if i < ai then Tag.delete
            else if j < bj then Tag.insert else Tag.count), i, ai, j, bj)]
        else []) bj := by
      split_ifs with h1 h2 h3 h4 h5 h6 h7 h8 h9 <;>
        first
        | exact refine_tiles c a b ((ai - i) + (bj - j)) i ai j bj (Nat.le_refl _) q1 q2
        | exact ⟨⟨rfl, q1, rfl⟩, ⟨rfl, q2, rfl⟩⟩
        | (exact ⟨by show i = ai; omega, by show j = bj; omega⟩)
        | (exfalso; simp_all)
    have hequal : TilesI ai
        (if size ≠ 0 then [(Tag.equal, ai, ai + size, bj, bj + size)] else [])
        (ai + size) ∧
        TilesJ bj
        (if size ≠ 0 then [(Tag.equal, ai, ai + size, bj, bj + size)] else [])
        (bj + size) := by
      by_cases hs : size ≠ 0
      · rw [if_pos hs]
        exact ⟨⟨rfl, by show ai ≤ ai + size; omega, rfl⟩,
          ⟨rfl, by show bj ≤ bj + size; omega, rfl⟩⟩
      · rw [if_neg hs]
        have hz : size = 0 := by omega
        subst hz
        exact ⟨by show ai = ai + 0; omega, by show bj = bj + 0; omega⟩
    constructor
    · rw [List.append_assoc]
      refine TilesI_append _ _ ai _ hgap.1 ?_
      exact TilesI_append _ _ (ai + size) _ hequal.1 ih1
    · rw [List.append_assoc]
      refine TilesJ_append _ _ bj _ hgap.2 ?_
      exact TilesJ_append _ _ (bj + size) _ hequal.2 ih2

/-- The opcode stream of `generate_opcodes` — with or without `refine=True` —
covers both sequences exactly: the `i`-ranges partition `[0, len(old))`
contiguously and monotonically, the `j`-ranges partition `[0, len(new))`, and
concatenating the `old[i1:i2]` (resp. `new[j1:j2]`) slices over all opcodes in
order reconstructs `old` (resp. `new`). -/
theorem gen_covers (c : Cruncher α) (a b : List α) (r : Bool) :
    TilesI 0 (generate_opcodes c a b r) a.length ∧
    TilesJ 0 (generate_opcodes c a b r) b.length ∧
    concatSlicesI a (generate_opcodes c a b r) = a ∧
    concatSlicesJ b (generate_opcodes c a b r) = b := by
  obtain ⟨merged, hmb, hchain, _, _⟩ := get_matching_blocks_spec a b
  have hle := blocksLe_of_chain a b merged 0 0 a.length b.length hchain
  have htiles : TilesI 0 (generate_opcodes c a b r) a.length ∧
      TilesJ 0 (generate_opcodes c a b r) b.length := by
    unfold generate_opcodes
    rw [hmb]
    exact genGo_tiles c a b r _ 0 0 hle
  refine ⟨htiles.1, htiles.2, ?_, ?_⟩
  · rw [concatSlicesI_eq_drop a _ 0 htiles.1]
    exact List.drop_zero a
  · rw [concatSlicesJ_eq_drop b _ 0 htiles.2]
    exact List.drop_zero b

/-- C1: for every pair of sequences the opcode stream of `generate_opcodes`
(refined or not, any cruncher) covers both sequences exactly: the `i`-ranges
tile `[0, a.length)` contiguously and monotonically, the `j`-ranges tile
`[0, b.length)`, and concatenating the slices reconstructs `a` and `b`. -/
theorem generate_opcodes_covers (c : Cruncher α) (a b : List α) (r : Bool) :
    TilesI 0 (generate_opcodes c a b r) a.length ∧
    TilesJ 0 (generate_opcodes c a b r) b.length ∧
    concatSlicesI a (generate_opcodes c a b r) = a ∧
    concatSlicesJ b (generate_opcodes c a b r) = b :=
  gen_covers c a b r

/-! ### Claim theorems that need only the machinery so far -/

/-- C9: whenever `_refine_replace_block` (on non-empty sub-ranges) picks a
synchronization point `(best_i, best_j)`, it satisfies
`i1 ≤ best_i < i2` and `j1 ≤ best_j < j2`, so both recursive calls — on
`(i1, best_i, j1, best_j)` and on `(best_i+1, i2, best_j+1, j2)` — strictly
decrease the sum of the two range lengths: the recursion is well-founded
(`refine_unfold` above shows the embedding satisfies exactly this
recurrence). -/
theorem refine_sync_in_range (c : Cruncher α) (a b : List α) {i1 i2 j1 j2 : ℕ}
    {bi bj : ℕ} {e : Bool}
    (hc : chooseSync (refineSearch c a b i1 i2 j1 j2) = some (bi, bj, e)) :
    i1 ≤ bi ∧ bi < i2 ∧ j1 ≤ bj ∧ bj < j2 ∧
      (bi - i1) + (bj - j1) < (i2 - i1) + (j2 - j1) ∧
      (i2 - (bi + 1)) + (j2 - (bj + 1)) < (i2 - i1) + (j2 - j1) := by
  obtain ⟨q1, q2, q3, q4, _⟩ := chooseSync_bounds hc
  exact ⟨q1, q2, q3, q4, by omega, by omega⟩

/-- Witness for C9 at a concrete input: diffing `["x"]` against `["x"]`
chooses the identical pair `(0, 0)` and both sub-measures drop from `2` to
`0`. -/
theorem refine_sync_in_range_witness :
    0 ≤ 0 ∧ 0 < 1 ∧ 0 ≤ 0 ∧ 0 < 1 ∧
      (0 - 0) + (0 - 0) < (1 - 0) + (1 - 0) ∧
      (1 - (0 + 1)) + (1 - (0 + 1)) < (1 - 0) + (1 - 0) :=
  @refine_sync_in_range String _ strCruncher ["x"] ["x"] 0 1 0 1 0 0 true (by decide)

/-- C5 (amended): for a replace block with both sub-ranges non-empty, the
refiner synchronizes on the best-scoring non-identical pair tracked by its
search loop exactly when that score is at least (not strictly above) the
`0.75` cutoff, discarding any identical pair; below the cutoff it uses the
first identical pair when one exists, and emits one whole-range `REPLACE`
otherwise. -/
theorem refine_sync_decision (c : Cruncher α) (a b : List α) (i1 i2 j1 j2 : ℕ)
    (h1 : i1 < i2) (h2 : j1 < j2) :
    (¬Frac.lt (refineSearch c a b i1 i2 j1 j2).bestR REFINE_CUTOFF →
      ∃ bi bj, (refineSearch c a b i1 i2 j1 j2).best = some (bi, bj) ∧
        refine_replace_block c a b i1 i2 j1 j2 =
          refine_replace_block c a b i1 bi j1 bj ++
            (Tag.replace, bi, bi + 1, bj, bj + 1) ::
              refine_replace_block c a b (bi + 1) i2 (bj + 1) j2) ∧
    (Frac.lt (refineSearch c a b i1 i2 j1 j2).bestR REFINE_CUTOFF →
      ∀ ei ej, (refineSearch c a b i1 i2 j1 j2).eq = some (ei, ej) →
        refine_replace_block c a b i1 i2 j1 j2 =
          refine_replace_block c a b i1 ei j1 ej ++
            (Tag.equal, ei, ei + 1, ej, ej + 1) ::
              refine_replace_block c a b (ei + 1) i2 (ej + 1) j2) ∧
    (Frac.lt (refineSearch c a b i1 i2 j1 j2).bestR REFINE_CUTOFF →
      (refineSearch c a b i1 i2 j1 j2).eq = none →
        refine_replace_block c a b i1 i2 j1 j2 = [(Tag.replace, i1, i2, j1, j2)]) := by
  obtain ⟨hb, hn, he⟩ := refineSearch_inv c a b i1 i2 j1 j2
  have hu := refine_unfold c a b i1 i2 j1 j2
  rw [if_neg (by omega), if_neg (by omega)] at hu
  refine ⟨?_, ?_, ?_⟩
  · intro hge
    rcases hq : (refineSearch c a b i1 i2 j1 j2).best with _ | ⟨bi, bj⟩
    · exact absurd (hn hq ▸ initBestR_lt_cutoff) hge
    · refine ⟨bi, bj, rfl, ?_⟩
      rw [hu]
      unfold chooseSync
      rw [if_neg hge, hq]
      simp
  · intro hlt ei ej hq
    rw [hu]
    unfold chooseSync
    rw [if_pos hlt, hq]
    simp
  · intro hlt hq
    rw [hu]
    unfold chooseSync
    rw [if_pos hlt, hq]

/-- Witness for C5's amended theorem at a concrete input: for the block
`["ppp", "abcd"]` vs `["abcx"]` the tracked best score is exactly the cutoff
(`6/8 = 0.75`), so the refiner synchronizes on the pair `(1, 0)`. -/
theorem refine_sync_decision_witness :
    (¬Frac.lt (refineSearch strCruncher ["ppp", "abcd"] ["abcx"] 0 2 0 1).bestR REFINE_CUTOFF →
      ∃ bi bj, (refineSearch strCruncher ["ppp", "abcd"] ["abcx"] 0 2 0 1).best = some (bi, bj) ∧
        refine_replace_block strCruncher ["ppp", "abcd"] ["abcx"] 0 2 0 1 =
          refine_replace_block strCruncher ["ppp", "abcd"] ["abcx"] 0 bi 0 bj ++
            (Tag.replace, bi, bi + 1, bj, bj + 1) ::
              refine_replace_block strCruncher ["ppp", "abcd"] ["abcx"] (bi + 1) 2 (bj + 1) 1) ∧
    (Frac.lt (refineSearch strCruncher ["ppp", "abcd"] ["abcx"] 0 2 0 1).bestR REFINE_CUTOFF →
      ∀ ei ej, (refineSearch strCruncher ["ppp", "abcd"] ["abcx"] 0 2 0 1).eq = some (ei, ej) →
        refine_replace_block strCruncher ["ppp", "abcd"] ["abcx"] 0 2 0 1 =
          refine_replace_block strCruncher ["ppp", "abcd"] ["abcx"] 0 ei 0 ej ++
            (Tag.equal, ei, ei + 1, ej, ej + 1) ::
              refine_replace_block strCruncher ["ppp", "abcd"] ["abcx"] (ei + 1) 2 (ej + 1) 1) ∧
    (Frac.lt (refineSearch strCruncher ["ppp", "abcd"] ["abcx"] 0 2 0 1).bestR REFINE_CUTOFF →
      (refineSearch strCruncher ["ppp", "abcd"] ["abcx"] 0 2 0 1).eq = none →
        refine_replace_block strCruncher ["ppp", "abcd"] ["abcx"] 0 2 0 1 =
          [(Tag.replace, 0, 2, 0, 1)]) :=
  refine_sync_decision strCruncher ["ppp", "abcd"] ["abcx"] 0 2 0 1
    (by decide) (by decide)

/-- Counterexample to C5 as stated: on the block `["ppp", "abcd"]` vs
`["abcx"]` the best non-identical score is exactly `0.75 = 6/8`, which does
not *exceed* the cutoff; the claim then requires the whole-range fallback
`REPLACE(0,2,0,1)`, but the code synchronizes on the pair and emits
`DELETE(0,1,0,0), REPLACE(1,2,0,1)` instead. -/
theorem refine_cutoff_boundary_cex :
    refineSearch strCruncher ["ppp", "abcd"] ["abcx"] 0 2 0 1 =
      ⟨⟨6, 8⟩, some (1, 0), none⟩ ∧
    ¬Frac.lt REFINE_CUTOFF ⟨6, 8⟩ ∧
    refine_replace_block strCruncher ["ppp", "abcd"] ["abcx"] 0 2 0 1 =
      [(Tag.delete, 0, 1, 0, 0), (Tag.replace, 1, 2, 0, 1)] ∧
    refine_replace_block strCruncher ["ppp", "abcd"] ["abcx"] 0 2 0 1 ≠
      [(Tag.replace, 0, 2, 0, 1)] := by
  refine ⟨by decide, by decide, by decide, by decide⟩

/-- Counterexample to C2 as stated: with refinement, the stream for
`["ppp", "abcde"]` vs `["qqq", "abcdx"]` is two consecutive `REPLACE`
opcodes. -/
theorem consecutive_tags_cex :
    generate_opcodes strCruncher ["ppp", "abcde"] ["qqq", "abcdx"] true =
      [(Tag.replace, 0, 1, 0, 1), (Tag.replace, 1, 2, 1, 2)] ∧
    ¬List.Chain' NeTag
      (generate_opcodes strCruncher ["ppp", "abcde"] ["qqq", "abcdx"] true) := by
  have hval : generate_opcodes strCruncher ["ppp", "abcde"] ["qqq", "abcdx"] true =
      [(Tag.replace, 0, 1, 0, 1), (Tag.replace, 1, 2, 1, 2)] := by decide
  refine ⟨hval, ?_⟩
  rw [hval]
  simp [List.chain'_cons, List.chain'_singleton, NeTag]

/-- C6: `expand_section` with an out-of-range index (negative or at least the
table length) returns the state unchanged: displayed texts, section table and
placeholder states are untouched. -/
theorem expand_section_out_of_range (st : EditorState) (k : Int)
    (h : k < 0 ∨ (st.collapsed_sections.length : Int) ≤ k) :
    expand_section st k = st := by
  unfold expand_section
  rw [if_neg]
  omega

/-- Witness for C6 at a concrete input: index `3` on the empty-diff state. -/
theorem expand_section_out_of_range_witness :
    expand_section (set_diff_text [] []) 3 = set_diff_text [] [] :=
  expand_section_out_of_range (set_diff_text [] []) 3 (by right; decide)

/-- C7: for ten identical lines `"L\n"` on both sides (threshold 5,
context 3), each displayed side is exactly three context lines, one
placeholder and three context lines — 7 display lines — and the single
collapsed section stores exactly the 4 hidden lines. -/
theorem collapse_scenario_ten_lines :
    (set_diff_text (List.replicate 10 "L\n") (List.replicate 10 "L\n")).displayedOld =
      [("L\n", -1), ("L\n", -1), ("L\n", -1),
        ("[4 lines hidden, click to expand]\n", 1),
        ("L\n", -1), ("L\n", -1), ("L\n", -1)] ∧
    (set_diff_text (List.replicate 10 "L\n") (List.replicate 10 "L\n")).displayedNew =
      [("L\n", -1), ("L\n", -1), ("L\n", -1),
        ("[4 lines hidden, click to expand]\n", 1),
        ("L\n", -1), ("L\n", -1), ("L\n", -1)] ∧
    (set_diff_text (List.replicate 10 "L\n") (List.replicate 10 "L\n")).displayedOld.length = 7 ∧
    (set_diff_text (List.replicate 10 "L\n") (List.replicate 10 "L\n")).displayedNew.length = 7 ∧
    (set_diff_text (List.replicate 10 "L\n") (List.replicate 10 "L\n")).collapsed_sections =
      [["L\n", "L\n", "L\n", "L\n"]] := by
  refine ⟨by decide, by decide, by decide, by decide, by decide⟩

/-- C3 fails on the code: the collapse guard is `count > threshold = 5` with
`context = 3`, so an equal run of exactly 6 lines is collapsed into a
placeholder that hides `6 - 2*3 = 0` lines: the collapsed-section table
contains one empty section, the placeholder reads "0 lines hidden", and the
displayed stream is longer (7 lines) than the run it replaces (6 lines). -/
theorem collapse_zero_hidden_bug :
    (set_diff_text (List.replicate 6 "L\n") (List.replicate 6 "L\n")).collapsed_sections =
      [[]] ∧
    (set_diff_text (List.replicate 6 "L\n") (List.replicate 6 "L\n")).displayedOld =
      [("L\n", -1), ("L\n", -1), ("L\n", -1),
        ("[0 lines hidden, click to expand]\n", 1),
        ("L\n", -1), ("L\n", -1), ("L\n", -1)] := by
  refine ⟨by decide, by decide⟩

/-! ### No adjacent Equal opcodes -/

theorem GapFree_mono {a b : List α} {i1 i2 j1 j2 i1' i2' j1' j2' : ℕ}
    (h : GapFree a b i1 i2 j1 j2) (hi1 : i1 ≤ i1') (hi2 : i2' ≤ i2)
    (hj1 : j1 ≤ j1') (hj2 : j2' ≤ j2) : GapFree a b i1' i2' j1' j2' := by
  intro i j q1 q2 q3 q4
  exact h i j (by omega) (by omega) (by omega) (by omega)

/-- Inside a rectangle with no equal pair, the search never records an
identical pair. -/
theorem refineSearch_eq_none (c : Cruncher α) (a b : List α) {i1 i2 j1 j2 : ℕ}
    (h : GapFree a b i1 i2 j1 j2) :
    (refineSearch c a b i1 i2 j1 j2).eq = none := by
  unfold refineSearch
  apply foldl_inv _ (fun (s : RSearch) => s.eq = none)
  · rfl
  · intro s j hj hs
    have hj' := List.mem_range'_1.mp hj
    apply foldl_inv _ (fun (s : RSearch) => s.eq = none)
    · exact hs
    · intro s' i hi hs'
      have hi' := List.mem_range'_1.mp hi
      unfold searchStep
      rcases hga : a.get? i with _ | ai
      · exact hs'
      rcases hgb : b.get? j with _ | bj
      · exact hs'
      simp only []
      have hne : ai ≠ bj := by
        intro hcon
        have : elemEq a b i j = false :=
          h i j hi'.1 (by omega) hj'.1 (by omega)
        unfold elemEq at this
        rw [hga, hgb] at this
        simp [hcon] at this
      rw [if_neg hne]
      by_cases hrq : Frac.le (c.realQuick ai bj) s'.bestR
      · rw [if_pos hrq]; exact hs'
      rw [if_neg hrq]
      by_cases hq : Frac.le (c.quick ai bj) s'.bestR
      · rw [if_pos hq]; exact hs'
      rw [if_neg hq]
      by_cases hr : Frac.lt s'.bestR (c.full ai bj)
      · rw [if_pos hr]; exact hs'
      · rw [if_neg hr]; exact hs'

theorem chooseSync_flag_false {s : RSearch} {bi bj : ℕ} {e : Bool}
    (hq : s.eq = none) (hc : chooseSync s = some (bi, bj, e)) : e = false := by
  unfold chooseSync at hc
  by_cases hlt : Frac.lt s.bestR REFINE_CUTOFF
  · rw [if_pos hlt, hq] at hc; cases hc
  · rw [if_neg hlt] at hc
    rcases hb : s.best with _ | ⟨bi', bj'⟩
    · rw [hb] at hc; cases hc
    · rw [hb] at hc
      injection hc with hc
      injection hc with _ hc
      injection hc with _ hc
      exact hc.symm

/-- In a rectangle with no equal pair, the refiner emits no `EQUAL` opcode at
all. -/
theorem refine_no_equal (c : Cruncher α) (a b : List α) :
    ∀ (n i1 i2 j1 j2 : ℕ), (i2 - i1) + (j2 - j1) ≤ n →
      GapFree a b i1 i2 j1 j2 →
      ∀ op ∈ refine_replace_block c a b i1 i2 j1 j2, op.1 ≠ Tag.equal := by
  intro n
  induction n with
  | zero =>
    intro i1 i2 j1 j2 hn hg op hop
    rw [refine_unfold, if_pos (by omega), if_neg (by omega)] at hop
    cases hop
  | succ n ih =>
    intro i1 i2 j1 j2 hn hg op hop
    rw [refine_unfold] at hop
    by_cases hb1 : i2 ≤ i1
    · rw [if_pos hb1] at hop
      by_cases hb2 : j1 < j2
      · rw [if_pos hb2] at hop
        rcases List.mem_singleton.mp hop with rfl
        simp
      · rw [if_neg hb2] at hop; cases hop
    · rw [if_neg hb1] at hop
      by_cases hb2 : j2 ≤ j1
      · rw [if_pos hb2, if_pos (by omega)] at hop
        rcases List.mem_singleton.mp hop with rfl
        simp
      · rw [if_neg hb2] at hop
        rcases hc : chooseSync (refineSearch c a b i1 i2 j1 j2) with _ | ⟨bi, bj, e⟩
        · rw [hc] at hop
          rcases List.mem_singleton.mp hop with rfl
          simp
        · rw [hc] at hop
          obtain ⟨q1, q2, q3, q4, _⟩ := chooseSync_bounds hc
          have hef : e = false :=
            chooseSync_flag_false (refineSearch_eq_none c a b hg) hc
          subst hef
          rcases List.mem_append.mp hop with hop | hop
          · exact ih i1 bi j1 bj (by omega)
              (GapFree_mono hg (Nat.le_refl _) (by omega) (Nat.le_refl _) (by omega)) op hop
          · rcases List.mem_cons.mp hop with rfl | hop
            · simp
            · exact ih (bi + 1) i2 (bj + 1) j2 (by omega)
                (GapFree_mono hg (by omega) (Nat.le_refl _) (by omega) (Nat.le_refl _)) op hop

theorem refine_nonempty (c : Cruncher α) (a b : List α) {i1 i2 j1 j2 : ℕ}
    (h1 : i1 < i2) (h2 : j1 < j2) :
    refine_replace_block c a b i1 i2 j1 j2 ≠ [] := by
  rw [refine_unfold, if_neg (by omega), if_neg (by omega)]
  rcases hc : chooseSync (refineSearch c a b i1 i2 j1 j2) with _ | ⟨bi, bj, e⟩
  · simp
  · simp

theorem chain'_of_all_ne {l : List Opcode} (h : ∀ op ∈ l, op.1 ≠ Tag.equal) :
    List.Chain' NotBothEqual l := by
  induction l with
  | nil => exact List.chain'_nil
  | cons op l ih =>
    rw [List.chain'_cons']
    refine ⟨?_, ih (fun x hx => h x (List.mem_cons_of_mem _ hx))⟩
    intro y _
    intro hcon
    exact h op (List.mem_cons_self _ _) hcon.1

theorem genGo_as_gapOps (c : Cruncher α) (a b : List α) (r : Bool)
    (i j ai bj size : ℕ) (rest : List (ℕ × ℕ × ℕ)) :
    genGo c a b r i j ((ai, bj, size) :: rest) =
      (gapOps c a b r i ai j bj ++
        (if size ≠ 0 then [(Tag.equal, ai, ai + size, bj, bj + size)] else [])) ++
        genGo c a b r (ai + size) (bj + size) rest := rfl

/-- Every gap opcode (flat gap, or the refined stream of a replace gap whose
rectangle is equal-pair-free) has a tag other than `EQUAL`. -/
theorem gapOps_no_equal (c : Cruncher α) (a b : List α) (r : Bool)
    {i ai j bj : ℕ} (hi : i ≤ ai) (hj : j ≤ bj)
    (hg : GapFree a b i ai j bj) :
    ∀ op ∈ gapOps c a b r i ai j bj, op.1 ≠ Tag.equal := by
  intro op hop
  unfold gapOps at hop
  split_ifs at hop with h1 h2 h3 h4 h5 h6 h7 h8 h9 <;>
    first
    | exact refine_no_equal c a b ((ai - i) + (bj - j)) i ai j bj (Nat.le_refl _) hg op hop
    | (rcases List.mem_singleton.mp hop with rfl; simp)
    | cases hop
    | (exfalso; simp_all)

/-- An empty gap-opcode list can only come from an empty gap. -/
theorem gapOps_eq_nil (c : Cruncher α) (a b : List α) (r : Bool)
    {i ai j bj : ℕ} (hi : i ≤ ai) (hj : j ≤ bj)
    (h : gapOps c a b r i ai j bj = []) : i = ai ∧ j = bj := by
  unfold gapOps at h
  by_cases h1 : i < ai ∧ j < bj
  · exfalso
    simp only [if_pos h1] at h
    by_cases hr : r = true
    · rw [if_pos (show r = true ∧ True from ⟨hr, trivial⟩)] at h
      exact refine_nonempty c a b h1.1 h1.2 h
    · rw [if_neg (by intro hc; exact hr hc.1)] at h
      rw [if_pos (by decide : Tag.replace ≠ Tag.count)] at h
      exact absurd h (by simp)
  · by_cases h2 : i < ai
    · exfalso
      simp only [if_neg h1, if_pos h2] at h
      rw [if_neg (by intro hc; exact absurd hc.2 (by decide))] at h
      rw [if_pos (by decide : Tag.delete ≠ Tag.count)] at h
      exact absurd h (by simp)
    · by_cases h3 : j < bj
      · exfalso
        simp only [if_neg h1, if_neg h2, if_pos h3] at h
        rw [if_neg (by intro hc; exact absurd hc.2 (by decide))] at h
        rw [if_pos (by decide : Tag.insert ≠ Tag.count)] at h
        exact absurd h (by simp)
      · omega

/-- With refinement in any mode, the stream over a block chain never emits
two consecutive `EQUAL` opcodes; a stream can only start with `EQUAL` when
the walk position coincides with the first block's start. -/
theorem genGo_no_two_equal (c : Cruncher α) (a b : List α) (r : Bool) :
    ∀ (merged : List (ℕ × ℕ × ℕ)) (i j : ℕ),
      Chain a b i j merged a.length b.length →
      List.Chain' NonAdj merged →
      (∀ blk ∈ merged, 0 < blk.2.2) →
      List.Chain' NotBothEqual
          (genGo c a b r i j (merged ++ [(a.length, b.length, 0)])) ∧
        (∀ op, (genGo c a b r i j (merged ++ [(a.length, b.length, 0)])).head? = some op →
          op.1 = Tag.equal →
          ∃ blk rest', merged = blk :: rest' ∧ i = blk.1 ∧ j = blk.2.1) := by
  intro merged
  induction merged with
  | nil =>
    intro i j hch _ _
    obtain ⟨q1, q2, q3⟩ := hch
    have hstream : genGo c a b r i j ([] ++ [(a.length, b.length, 0)]) =
        gapOps c a b r i a.length j b.length := by
      rw [List.nil_append, genGo_as_gapOps]
      simp [genGo]
    rw [hstream]
    have hne := gapOps_no_equal c a b r q1 q2 q3
    refine ⟨chain'_of_all_ne hne, ?_⟩
    intro op hop heq
    exact absurd heq (hne op (List.mem_of_mem_head? hop))
  | cons blk merged' ih =>
    intro i j hch hna hpos
    rcases blk with ⟨ai, bj, size⟩
    obtain ⟨q1, q2, q3, q4, q5, q6⟩ := hch
    have hq1 : i ≤ ai := q1
    have hq2 : j ≤ bj := q2
    have hq3 : 0 < size := q3
    rw [List.chain'_cons'] at hna
    obtain ⟨hhead, hna'⟩ := hna
    have hpos' : ∀ b' ∈ merged', 0 < b'.2.2 :=
      fun b' hb' => hpos b' (List.mem_cons_of_mem _ hb')
    obtain ⟨ihC, ihH⟩ := ih (ai + size) (bj + size) q6 hna' hpos'
    have hstream : genGo c a b r i j (((ai, bj, size) :: merged') ++ [(a.length, b.length, 0)]) =
        (gapOps c a b r i ai j bj ++ [(Tag.equal, ai, ai + size, bj, bj + size)]) ++
          genGo c a b r (ai + size) (bj + size) (merged' ++ [(a.length, b.length, 0)]) := by
      rw [List.cons_append, genGo_as_gapOps]
      rw [if_pos (by omega : size ≠ 0)]
    rw [hstream]
    have hgapne := gapOps_no_equal c a b r hq1 hq2 q4
    have hrest_head : ∀ y, (genGo c a b r (ai + size) (bj + size)
        (merged' ++ [(a.length, b.length, 0)])).head? = some y → y.1 ≠ Tag.equal := by
      intro y hy hyeq
      obtain ⟨blk', rest', hm', he1, he2⟩ := ihH y hy hyeq
      have : NonAdj (ai, bj, size) blk' := by
        apply hhead
        rw [hm']
        rfl
      exact this ⟨by show ai + size = blk'.1; omega, by show bj + size = blk'.2.1; omega⟩
    constructor
    · rw [List.chain'_append]
      refine ⟨?_, ihC, ?_⟩
      · rw [List.chain'_append]
        refine ⟨chain'_of_all_ne hgapne, List.chain'_singleton _, ?_⟩
        intro x hx y hy
        intro hcon
        exact hgapne x (List.mem_of_mem_getLast? hx) hcon.1
      · intro x _ y hy
        intro hcon
        exact hrest_head y hy hcon.2
    · intro op hop heq
      rcases hgap : gapOps c a b r i ai j bj with _ | ⟨g0, gs⟩
      · obtain ⟨he1, he2⟩ := gapOps_eq_nil c a b r hq1 hq2 hgap
        exact ⟨(ai, bj, size), merged', rfl, he1, he2⟩
      · rw [hgap] at hop
        simp only [List.cons_append, List.head?_cons, Option.some.injEq] at hop
        subst hop
        exact absurd heq (hgapne g0 (by rw [hgap]; exact List.mem_cons_self _ _))

/-- Without refinement every gap contributes at most one opcode. -/
theorem gapOps_false (c : Cruncher α) (a b : List α) (i ai j bj : ℕ) :
    gapOps c a b false i ai j bj =
      if (if i < ai ∧ j < bj then Tag.replace
          else if i < ai then Tag.delete
          else if j < bj then Tag.insert else Tag.count) ≠ Tag.count then
        [((if i < ai ∧ j < bj then Tag.replace
          else if i < ai then Tag.delete
          else if j < bj then Tag.insert else Tag.count), i, ai, j, bj)]
      else [] := by
  unfold gapOps
  rw [if_neg (by simp)]

/-- Without refinement, the stream over a block chain never repeats a tag on
consecutive opcodes. -/
theorem genGo_netag (c : Cruncher α) (a b : List α) :
    ∀ (merged : List (ℕ × ℕ × ℕ)) (i j : ℕ),
      Chain a b i j merged a.length b.length →
      List.Chain' NonAdj merged →
      (∀ blk ∈ merged, 0 < blk.2.2) →
      List.Chain' NeTag
          (genGo c a b false i j (merged ++ [(a.length, b.length, 0)])) ∧
        (∀ op, (genGo c a b false i j
            (merged ++ [(a.length, b.length, 0)])).head? = some op →
          op.1 = Tag.equal →
          ∃ blk rest', merged = blk :: rest' ∧ i = blk.1 ∧ j = blk.2.1) := by
  intro merged
  induction merged with
  | nil =>
    intro i j hch _ _
    obtain ⟨q1, q2, q3⟩ := hch
    have hstream : genGo c a b false i j ([] ++ [(a.length, b.length, 0)]) =
        gapOps c a b false i a.length j b.length := by
      rw [List.nil_append, genGo_as_gapOps]
      simp [genGo]
    rw [hstream]
    have hne := gapOps_no_equal c a b false q1 q2 q3
    constructor
    · rw [gapOps_false]
      by_cases ht : (if i < a.length ∧ j < b.length then Tag.replace
          else if i < a.length then Tag.delete
          else if j < b.length then Tag.insert else Tag.count) ≠ Tag.count
      · rw [if_pos ht]
        exact List.chain'_singleton _
      · rw [if_neg ht]
        exact List.chain'_nil
    · intro op hop heq
      exact absurd heq (hne op (List.mem_of_mem_head? hop))
  | cons blk merged' ih =>
    intro i j hch hna hpos
    rcases blk with ⟨ai, bj, size⟩
    obtain ⟨q1, q2, q3, q4, q5, q6⟩ := hch
    have hq1 : i ≤ ai := q1
    have hq2 : j ≤ bj := q2
    have hq3 : 0 < size := q3
    rw [List.chain'_cons'] at hna
    obtain ⟨hhead, hna'⟩ := hna
    have hpos' : ∀ b' ∈ merged', 0 < b'.2.2 :=
      fun b' hb' => hpos b' (List.mem_cons_of_mem _ hb')
    obtain ⟨ihC, ihH⟩ := ih (ai + size) (bj + size) q6 hna' hpos'
    have hstream : genGo c a b false i j
        (((ai, bj, size) :: merged') ++ [(a.length, b.length, 0)]) =
        (gapOps c a b false i ai j bj ++ [(Tag.equal, ai, ai + size, bj, bj + size)]) ++
          genGo c a b false (ai + size) (bj + size) (merged' ++ [(a.length, b.length, 0)]) := by
      rw [List.cons_append, genGo_as_gapOps]
      rw [if_pos (by omega : size ≠ 0)]
    rw [hstream]
    have hgapne := gapOps_no_equal c a b false hq1 hq2 q4
    have hrest_head : ∀ y, (genGo c a b false (ai + size) (bj + size)
        (merged' ++ [(a.length, b.length, 0)])).head? = some y → y.1 ≠ Tag.equal := by
      intro y hy hyeq
      obtain ⟨blk', rest', hm', he1, he2⟩ := ihH y hy hyeq
      have hnadj : NonAdj (ai, bj, size) blk' := by
        apply hhead
        rw [hm']
        rfl
      exact hnadj ⟨by show ai + size = blk'.1; omega, by show bj + size = blk'.2.1; omega⟩
    constructor
    · rw [List.chain'_append]
      refine ⟨?_, ihC, ?_⟩
      · rw [List.chain'_append]
        refine ⟨?_, List.chain'_singleton _, ?_⟩
        · rw [gapOps_false]
          by_cases ht : (if i < ai ∧ j < bj then Tag.replace
              else if i < ai then Tag.delete
              else if j < bj then Tag.insert else Tag.count) ≠ Tag.count
          · rw [if_pos ht]
            exact List.chain'_singleton _
          · rw [if_neg ht]
            exact List.chain'_nil
        · intro x hx y hy
          have hxe := hgapne x (List.mem_of_mem_getLast? hx)
          simp only [List.head?_cons, Option.mem_def, Option.some.injEq] at hy
          subst hy
          intro hcon
          exact hxe (by rw [hcon])
      · intro x hx y hy
        rw [List.getLast?_concat] at hx
        simp only [Option.mem_def, Option.some.injEq] at hx
        subst hx
        intro hcon
        exact hrest_head y hy (by rw [← hcon])
    · intro op hop heq
      rcases hgap : gapOps c a b false i ai j bj with _ | ⟨g0, gs⟩
      · obtain ⟨he1, he2⟩ := gapOps_eq_nil c a b false hq1 hq2 hgap
        exact ⟨(ai, bj, size), merged', rfl, he1, he2⟩
      · rw [hgap] at hop
        simp only [List.cons_append, List.head?_cons, Option.some.injEq] at hop
        subst hop
        exact absurd heq (hgapne g0 (by rw [hgap]; exact List.mem_cons_self _ _))

/-- C2 (amended): without refinement no two consecutive opcodes of
`generate_opcodes` carry the same tag; with refinement adjacent opcodes can
repeat a tag (the refiner can emit adjacent replaces), but in every stream — refined or
not — no two consecutive opcodes are both `EQUAL`. -/
theorem opcode_stream_adjacency (c : Cruncher α) (a b : List α) :
    List.Chain' NeTag (generate_opcodes c a b false) ∧
    ∀ r, List.Chain' NotBothEqual (generate_opcodes c a b r) := by
  obtain ⟨merged, hmb, hchain, hna, hpos⟩ := get_matching_blocks_spec a b
  constructor
  · unfold generate_opcodes
    rw [hmb]
    exact (genGo_netag c a b merged 0 0 hchain hna hpos).1
  · intro r
    unfold generate_opcodes
    rw [hmb]
    exact (genGo_no_two_equal c a b r merged 0 0 hchain hna hpos).1

theorem applyStates_eq (parts : List String) (phs : List (ℕ × ℕ)) :
    applyStates parts phs = applyStatesFrom phs 0 parts := by
  unfold applyStates List.enum
  generalize 0 = off
  induction parts generalizing off with
  | nil => rfl
  | cons t rest ih =>
    simp only [List.enumFrom, List.map_cons, applyStatesFrom]
    rw [ih]

theorem applyStatesFrom_append (phs : List (ℕ × ℕ)) :
    ∀ (l1 l2 : List String) (off : ℕ),
      applyStatesFrom phs off (l1 ++ l2) =
        applyStatesFrom phs off l1 ++ applyStatesFrom phs (off + l1.length) l2 := by
  intro l1
  induction l1 with
  | nil => intro l2 off; simp [applyStatesFrom]
  | cons t l1 ih =>
    intro l2 off
    simp only [List.cons_append, applyStatesFrom, List.length_cons, List.append_eq]
    rw [ih]
    have he : off + 1 + l1.length = off + (l1.length + 1) := by omega
    rw [he]

/-- Placeholder entries outside the window of the walked lines are
irrelevant. -/
theorem applyStatesFrom_nomatch (phs : List (ℕ × ℕ)) :
    ∀ (l : List String) (off : ℕ),
      (∀ q ∈ phs, q.1 < off ∨ off + l.length ≤ q.1) →
      applyStatesFrom phs off l = l.map (fun t => (t, (-1 : Int))) := by
  intro l
  induction l with
  | nil => intro off _; rfl
  | cons t rest ih =>
    intro off h
    simp only [applyStatesFrom, List.map_cons]
    have hfind : phs.find? (fun q => q.1 = off) = none := by
      rw [List.find?_eq_none]
      intro q hq
      have := h q hq
      simp only [List.length_cons] at this
      simp only [decide_eq_true_eq]
      omega
    rw [hfind]
    rw [ih (off + 1)]
    intro q hq
    have := h q hq
    simp only [List.length_cons] at this
    omega

theorem applyStatesFrom_append_phs (ph1 ph2 : List (ℕ × ℕ)) :
    ∀ (l : List String) (off : ℕ),
      (∀ q ∈ ph2, off + l.length ≤ q.1) →
      applyStatesFrom (ph1 ++ ph2) off l = applyStatesFrom ph1 off l := by
  intro l
  induction l with
  | nil => intro off _; rfl
  | cons t rest ih =>
    intro off h
    simp only [applyStatesFrom]
    have hfind2 : ph2.find? (fun q => q.1 = off) = none := by
      rw [List.find?_eq_none]
      intro q hq
      have := h q hq
      simp only [List.length_cons] at this
      simp only [decide_eq_true_eq]
      omega
    rw [List.find?_append, hfind2, Option.or_none]
    rw [ih (off + 1)]
    intro q hq
    have := h q hq
    simp only [List.length_cons] at this
    omega

theorem applyStatesFrom_drop_phs (ph1 ph2 : List (ℕ × ℕ)) :
    ∀ (l : List String) (off : ℕ),
      (∀ q ∈ ph1, q.1 < off) →
      applyStatesFrom (ph1 ++ ph2) off l = applyStatesFrom ph2 off l := by
  intro l
  induction l with
  | nil => intro off _; rfl
  | cons t rest ih =>
    intro off h
    simp only [applyStatesFrom]
    have hfind1 : ph1.find? (fun q => q.1 = off) = none := by
      rw [List.find?_eq_none]
      intro q hq
      have := h q hq
      simp only [decide_eq_true_eq]
      omega
    rw [List.find?_append, hfind1, Option.none_or]
    rw [ih (off + 1)]
    intro q hq
    have := h q hq
    omega

/-- Walking a window whose single placeholder entry points at the middle
line. -/
theorem applyStatesFrom_single (pos ci : ℕ) :
    ∀ (l1 : List String) (t : String) (l2 : List String) (off : ℕ),
      pos = off + l1.length → off + (l1.length + 1 + l2.length) ≤ pos + 1 + l2.length →
      applyStatesFrom [(pos, ci)] off (l1 ++ t :: l2) =
        l1.map (fun x => (x, (-1 : Int))) ++
          (t, (ci : Int) + 1) :: l2.map (fun x => (x, (-1 : Int))) := by
  intro l1 t l2 off hpos _
  rw [applyStatesFrom_append]
  have h1 : applyStatesFrom [(pos, ci)] off l1 = l1.map (fun x => (x, (-1 : Int))) := by
    apply applyStatesFrom_nomatch
    intro q hq
    rcases List.mem_singleton.mp hq with rfl
    omega
  rw [h1]
  congr 1
  simp only [applyStatesFrom]
  have hfind : List.find? (fun q => q.1 = off + l1.length) [(pos, ci)] = some (pos, ci) := by
    simp [List.find?, hpos]
  rw [hfind]
  have h2 : applyStatesFrom [(pos, ci)] (off + l1.length + 1) l2 =
      l2.map (fun x => (x, (-1 : Int))) := by
    apply applyStatesFrom_nomatch
    intro q hq
    rcases List.mem_singleton.mp hq with rfl
    omega
  rw [h2]

theorem pySlice_length (l : List α) (i j : ℕ) (h1 : i ≤ j) (h2 : j ≤ l.length) :
    (pySlice l i j).length = j - i := by
  unfold pySlice
  rw [List.length_take, List.length_drop]
  omega

theorem TilesI_mem_bounds :
    ∀ (ops : List Opcode) (s e : ℕ), TilesI s ops e →
      ∀ op ∈ ops, op.2.1 ≤ op.2.2.1 ∧ op.2.2.1 ≤ e := by
  intro ops
  induction ops with
  | nil => intro s e _ op hop; cases hop
  | cons op0 rest ih =>
    intro s e h op hop
    obtain ⟨q1, q2, q3⟩ := h
    rcases List.mem_cons.mp hop with rfl | hop
    · exact ⟨q2, TilesI_le _ _ _ q3⟩
    · exact ih _ _ q3 op hop

theorem TilesJ_mem_bounds :
    ∀ (ops : List Opcode) (s e : ℕ), TilesJ s ops e →
      ∀ op ∈ ops, op.2.2.2.1 ≤ op.2.2.2.2 ∧ op.2.2.2.2 ≤ e := by
  intro ops
  induction ops with
  | nil => intro s e _ op hop; cases hop
  | cons op0 rest ih =>
    intro s e h op hop
    obtain ⟨q1, q2, q3⟩ := h
    rcases List.mem_cons.mp hop with rfl | hop
    · exact ⟨q2, TilesJ_le _ _ _ q3⟩
    · exact ih _ _ q3 op hop

theorem elemEq_true_iff (a b : List α) (i j : ℕ) :
    elemEq a b i j = true ↔ ∃ x, a.get? i = some x ∧ b.get? j = some x := by
  unfold elemEq
  rcases hga : a.get? i with _ | x
  · simp
  rcases hgb : b.get? j with _ | y
  · simp
  simp only [decide_eq_true_eq]
  constructor
  · intro h; exact ⟨x, rfl, by rw [h]⟩
  · intro ⟨z, hz1, hz2⟩
    injection hz1 with hz1
    injection hz2 with hz2
    rw [hz1, hz2]

/-- An elementwise-matching block gives equal Python slices. -/
theorem sliceEq_pySlice (a b : List α) (i j k : ℕ) (h : SliceEq a b i j k) :
    pySlice a i (i + k) = pySlice b j (j + k) := by
  apply List.ext_getElem?
  intro t
  unfold pySlice
  have he1 : i + k - i = k := by omega
  have he2 : j + k - j = k := by omega
  rw [he1, he2]
  by_cases ht : t < k
  · rw [List.getElem?_take_of_lt ht, List.getElem?_take_of_lt ht]
    rw [List.getElem?_drop, List.getElem?_drop]
    have := (elemEq_true_iff a b (i + t) (j + t)).mp (h t ht)
    obtain ⟨x, hx1, hx2⟩ := this
    rw [List.get?_eq_getElem?] at hx1 hx2
    rw [hx1, hx2]
  · have h1 : ((a.drop i).take k)[t]? = none := by
      rw [List.getElem?_eq_none_iff]
      have := List.length_take_le k (a.drop i)
      omega
    have h2 : ((b.drop j).take k)[t]? = none := by
      rw [List.getElem?_eq_none_iff]
      have := List.length_take_le k (b.drop j)
      omega
    rw [h1, h2]

theorem chain_mem_blocks (a b : List α) :
    ∀ (blocks : List (ℕ × ℕ × ℕ)) (ci cj ehi ejhi : ℕ),
      Chain a b ci cj blocks ehi ejhi →
      ∀ blk ∈ blocks, SliceEq a b blk.1 blk.2.1 blk.2.2 ∧
        blk.1 + blk.2.2 ≤ ehi ∧ blk.2.1 + blk.2.2 ≤ ejhi := by
  intro blocks
  induction blocks with
  | nil => intro ci cj ehi ejhi _ blk hblk; cases hblk
  | cons blk0 rest ih =>
    intro ci cj ehi ejhi h blk hblk
    obtain ⟨q1, q2, q3, q4, q5, q6⟩ := h
    rcases List.mem_cons.mp hblk with rfl | hblk
    · have := chain_le a b rest _ _ _ _ q6
      exact ⟨q5, by omega, by omega⟩
    · exact ih _ _ _ _ q6 blk hblk

/-- Without refinement, a gap opcode never carries the `EQUAL` tag. -/
theorem gapOps_false_no_equal (c : Cruncher α) (a b : List α) (i ai j bj : ℕ) :
    ∀ op ∈ gapOps c a b false i ai j bj, op.1 ≠ Tag.equal := by
  intro op hop
  rw [gapOps_false] at hop
  by_cases ht : (if i < ai ∧ j < bj then Tag.replace
      else if i < ai then Tag.delete
      else if j < bj then Tag.insert else Tag.count) ≠ Tag.count
  · rw [if_pos ht] at hop
    rcases List.mem_singleton.mp hop with rfl
    simp only []
    split_ifs <;> simp
  · rw [if_neg ht] at hop
    cases hop

/-- In an unrefined stream, every `EQUAL` opcode is a matching block. -/
theorem genGo_equal_mem (c : Cruncher α) (a b : List α) :
    ∀ (blocks : List (ℕ × ℕ × ℕ)) (i j : ℕ) (op : Opcode),
      op ∈ genGo c a b false i j blocks → op.1 = Tag.equal →
      ∃ blk ∈ blocks, 0 < blk.2.2 ∧
        op = (Tag.equal, blk.1, blk.1 + blk.2.2, blk.2.1, blk.2.1 + blk.2.2) := by
  intro blocks
  induction blocks with
  | nil => intro i j op hop; cases hop
  | cons blk rest ih =>
    intro i j op hop heq
    rcases blk with ⟨ai, bj, size⟩
    rw [genGo_as_gapOps] at hop
    rcases List.mem_append.mp hop with hop | hop
    · rcases List.mem_append.mp hop with hop | hop
      · exact absurd heq (gapOps_false_no_equal c a b i ai j bj op hop)
      · by_cases hs : size ≠ 0
        · rw [if_pos hs] at hop
          rcases List.mem_singleton.mp hop with rfl
          exact ⟨(ai, bj, size), List.mem_cons_self _ _, by show 0 < size; omega, rfl⟩
        · rw [if_neg hs] at hop; cases hop
    · obtain ⟨blk', hblk', hpos', hform⟩ := ih _ _ op hop heq
      exact ⟨blk', List.mem_cons_of_mem _ hblk', hpos', hform⟩

theorem get_opcodes_bounds (old new : List String) :
    ∀ op ∈ get_opcodes old new, OpBounds old new op := by
  intro op hop
  have hcov := gen_covers strCruncher old new false
  have hibd := TilesI_mem_bounds _ _ _ hcov.1 op hop
  have hjbd := TilesJ_mem_bounds _ _ _ hcov.2.1 op hop
  refine ⟨hibd.1, hibd.2, hjbd.1, hjbd.2, ?_⟩
  intro heq
  obtain ⟨merged, hmb, hchain, _, _⟩ := get_matching_blocks_spec old new
  unfold get_opcodes generate_opcodes at hop
  rw [hmb] at hop
  obtain ⟨blk, hblk, hkpos, hform⟩ := genGo_equal_mem strCruncher old new _ 0 0 op hop heq
  have hblk' : blk ∈ merged ∨ blk ∈ [(old.length, new.length, 0)] :=
    List.mem_append.mp hblk
  have hmem : blk ∈ merged := by
    rcases hblk' with h | h
    · exact h
    · rcases List.mem_singleton.mp h with rfl
      exact absurd hkpos (by simp)
  obtain ⟨hslice, hb1, hb2⟩ := chain_mem_blocks old new merged 0 0 _ _ hchain blk hmem
  rw [hform]
  constructor
  · show blk.1 + blk.2.2 - blk.1 = blk.2.1 + blk.2.2 - blk.2.1
    omega
  · show pySlice old blk.1 (blk.1 + blk.2.2) = pySlice new blk.2.1 (blk.2.1 + blk.2.2)
    exact sliceEq_pySlice old new _ _ _ hslice

/-- The fold of `set_diff_text` computes, state-assignment included, exactly
the direct per-opcode construction `buildD`. -/
theorem sdt_build (old new : List String) :
    ∀ (ops : List Opcode) (acc : CollapseAcc),
      (∀ op ∈ ops, OpBounds old new op) →
      acc.oldLineNum = acc.dispOld.length →
      acc.newLineNum = acc.dispNew.length →
      (∀ q ∈ acc.phOld, q.1 < acc.dispOld.length) →
      (∀ q ∈ acc.phNew, q.1 < acc.dispNew.length) →
      applyStatesFrom (ops.foldl (collapseStep old new) acc).phOld 0
          (ops.foldl (collapseStep old new) acc).dispOld =
        applyStatesFrom acc.phOld 0 acc.dispOld ++
          (buildD old new acc.sections.length ops).1 ∧
      applyStatesFrom (ops.foldl (collapseStep old new) acc).phNew 0
          (ops.foldl (collapseStep old new) acc).dispNew =
        applyStatesFrom acc.phNew 0 acc.dispNew ++
          (buildD old new acc.sections.length ops).2.1 ∧
      (ops.foldl (collapseStep old new) acc).sections =
        acc.sections ++ (buildD old new acc.sections.length ops).2.2 := by
  intro ops
  induction ops with
  | nil =>
    intro acc _ _ _ _ _
    simp [buildD]
  | cons op rest ih =>
    intro acc hbd hL1 hL2 hP1 hP2
    rcases op with ⟨tag, i1, i2, j1, j2⟩
    have hob := hbd _ (List.mem_cons_self _ _)
    obtain ⟨ob1, ob2, ob3, ob4, ob5⟩ := hob
    have hb1 : i1 ≤ i2 := ob1
    have hb2 : i2 ≤ old.length := ob2
    have hb3 : j1 ≤ j2 := ob3
    have hb4 : j2 ≤ new.length := ob4
    have hbd' : ∀ op ∈ rest, OpBounds old new op :=
      fun op hop => hbd op (List.mem_cons_of_mem _ hop)
    rw [List.foldl_cons]
    by_cases hcol : tag = Tag.equal ∧ COLLAPSE_THRESHOLD_LINES < i2 - i1
    · -- the equal run is collapsed
      have hlen : i2 - i1 = j2 - j1 := (ob5 hcol.1).1
      have hT : (5 : ℕ) < i2 - i1 := hcol.2
      have hstep : collapseStep old new acc (tag, i1, i2, j1, j2) =
          { dispOld := acc.dispOld ++ (pySlice old i1 (i1 + 3) ++
              placeholderText (i2 - i1 - 2 * 3) :: pySlice old (i2 - 3) i2)
            dispNew := acc.dispNew ++ (pySlice new j1 (j1 + 3) ++
              placeholderText (i2 - i1 - 2 * 3) :: pySlice new (j2 - 3) j2)
            sections := acc.sections ++ [pySlice old (i1 + 3) (i2 - 3)]
            phOld := acc.phOld ++ [(acc.oldLineNum + 3, acc.sections.length)]
            phNew := acc.phNew ++ [(acc.newLineNum + 3, acc.sections.length)]
            oldLineNum := acc.oldLineNum + (2 * 3 + 1)
            newLineNum := acc.newLineNum + (2 * 3 + 1) } := by
        simp only [collapseStep]
        rw [if_pos hcol]
        rfl
      set acc' := collapseStep old new acc (tag, i1, i2, j1, j2) with hacc'
      have hlenTop : (pySlice old i1 (i1 + 3)).length = 3 := by
        rw [pySlice_length old i1 (i1 + 3) (by omega) (by omega)]
        omega
      have hlenBot : (pySlice old (i2 - 3) i2).length = 3 := by
        rw [pySlice_length old (i2 - 3) i2 (by omega) (by omega)]
        omega
      have hlenTopN : (pySlice new j1 (j1 + 3)).length = 3 := by
        rw [pySlice_length new j1 (j1 + 3) (by omega) (by omega)]
        omega
      have hlenBotN : (pySlice new (j2 - 3) j2).length = 3 := by
        rw [pySlice_length new (j2 - 3) j2 (by omega) (by omega)]
        omega
      have hi1 : acc'.oldLineNum = acc'.dispOld.length := by
        rw [hstep]
        simp only [List.length_append, List.length_cons, hlenTop, hlenBot]
        omega
      have hi2 : acc'.newLineNum = acc'.dispNew.length := by
        rw [hstep]
        simp only [List.length_append, List.length_cons, hlenTopN, hlenBotN]
        omega
      have hi3 : ∀ q ∈ acc'.phOld, q.1 < acc'.dispOld.length := by
        rw [hstep]
        intro q hq
        simp only [List.length_append, List.length_cons, hlenTop, hlenBot]
        rcases List.mem_append.mp hq with hq | hq
        · have := hP1 q hq; omega
        · rcases List.mem_singleton.mp hq with rfl
          show acc.oldLineNum + 3 < acc.dispOld.length + (3 + (3 + 1))
          omega
      have hi4 : ∀ q ∈ acc'.phNew, q.1 < acc'.dispNew.length := by
        rw [hstep]
        intro q hq
        simp only [List.length_append, List.length_cons, hlenTopN, hlenBotN]
        rcases List.mem_append.mp hq with hq | hq
        · have := hP2 q hq; omega
        · rcases List.mem_singleton.mp hq with rfl
          show acc.newLineNum + 3 < acc.dispNew.length + (3 + (3 + 1))
          omega
      obtain ⟨r1, r2, r3⟩ := ih acc' hbd' hi1 hi2 hi3 hi4
      have hsecs' : acc'.sections.length = acc.sections.length + 1 := by
        rw [hstep]
        simp
      have hbuild : buildD old new acc.sections.length
          ((tag, i1, i2, j1, j2) :: rest) =
          ((pySlice old i1 (i1 + 3)).map (fun t => (t, (-1 : Int))) ++
            (placeholderText (i2 - i1 - 2 * 3), (acc.sections.length : Int) + 1) ::
              (pySlice old (i2 - 3) i2).map (fun t => (t, (-1 : Int))) ++
                (buildD old new (acc.sections.length + 1) rest).1,
           (pySlice new j1 (j1 + 3)).map (fun t => (t, (-1 : Int))) ++
            (placeholderText (i2 - i1 - 2 * 3), (acc.sections.length : Int) + 1) ::
              (pySlice new (j2 - 3) j2).map (fun t => (t, (-1 : Int))) ++
                (buildD old new (acc.sections.length + 1) rest).2.1,
           pySlice old (i1 + 3) (i2 - 3) ::
             (buildD old new (acc.sections.length + 1) rest).2.2) := by
        simp only [buildD]
        rw [if_pos hcol]
        rfl
      have hsplitOld : applyStatesFrom acc'.phOld 0 acc'.dispOld =
          applyStatesFrom acc.phOld 0 acc.dispOld ++
            ((pySlice old i1 (i1 + 3)).map (fun t => (t, (-1 : Int))) ++
              (placeholderText (i2 - i1 - 2 * 3), (acc.sections.length : Int) + 1) ::
                (pySlice old (i2 - 3) i2).map (fun t => (t, (-1 : Int)))) := by
        rw [hstep]
        rw [applyStatesFrom_append]
        congr 1
        · apply applyStatesFrom_append_phs
          intro q hq
          rcases List.mem_singleton.mp hq with rfl
          show 0 + acc.dispOld.length ≤ acc.oldLineNum + 3
          omega
        · rw [applyStatesFrom_drop_phs]
          · exact applyStatesFrom_single _ _ _ _ _ _ (by omega) (by omega)
          · intro q hq
            have := hP1 q hq
            omega
      have hsplitNew : applyStatesFrom acc'.phNew 0 acc'.dispNew =
          applyStatesFrom acc.phNew 0 acc.dispNew ++
            ((pySlice new j1 (j1 + 3)).map (fun t => (t, (-1 : Int))) ++
              (placeholderText (i2 - i1 - 2 * 3), (acc.sections.length : Int) + 1) ::
                (pySlice new (j2 - 3) j2).map (fun t => (t, (-1 : Int)))) := by
        rw [hstep]
        rw [applyStatesFrom_append]
        congr 1
        · apply applyStatesFrom_append_phs
          intro q hq
          rcases List.mem_singleton.mp hq with rfl
          show 0 + acc.dispNew.length ≤ acc.newLineNum + 3
          omega
        · rw [applyStatesFrom_drop_phs]
          · exact applyStatesFrom_single _ _ _ _ _ _ (by omega) (by omega)
          · intro q hq
            have := hP2 q hq
            omega
      refine ⟨?_, ?_, ?_⟩
      · rw [r1, hsplitOld, hsecs', hbuild]
        simp only [List.append_assoc, List.cons_append]
      · rw [r2, hsplitNew, hsecs', hbuild]
        simp only [List.append_assoc, List.cons_append]
      · have hsec2 : acc'.sections = acc.sections ++ [pySlice old (i1 + 3) (i2 - 3)] := by
          rw [hstep]
        rw [r3, hsecs', hbuild, hsec2]
        simp
    · -- displayed in full
      have hstep : collapseStep old new acc (tag, i1, i2, j1, j2) =
          { acc with
            dispOld := acc.dispOld ++ pySlice old i1 i2
            dispNew := acc.dispNew ++ pySlice new j1 j2
            oldLineNum := acc.oldLineNum + (i2 - i1)
            newLineNum := acc.newLineNum + (j2 - j1) } := by
        simp only [collapseStep]
        rw [if_neg hcol]
      set acc' := collapseStep old new acc (tag, i1, i2, j1, j2) with hacc'
      have hlenO : (pySlice old i1 i2).length = i2 - i1 :=
        pySlice_length old i1 i2 hb1 hb2
      have hlenN : (pySlice new j1 j2).length = j2 - j1 :=
        pySlice_length new j1 j2 hb3 hb4
      have hi1 : acc'.oldLineNum = acc'.dispOld.length := by
        rw [hstep]
        simp only [List.length_append, hlenO]
        omega
      have hi2 : acc'.newLineNum = acc'.dispNew.length := by
        rw [hstep]
        simp only [List.length_append, hlenN]
        omega
      have hi3 : ∀ q ∈ acc'.phOld, q.1 < acc'.dispOld.length := by
        rw [hstep]
        intro q hq
        simp only [List.length_append]
        have := hP1 q hq
        omega
      have hi4 : ∀ q ∈ acc'.phNew, q.1 < acc'.dispNew.length := by
        rw [hstep]
        intro q hq
        simp only [List.length_append]
        have := hP2 q hq
        omega
      obtain ⟨r1, r2, r3⟩ := ih acc' hbd' hi1 hi2 hi3 hi4
      have hsecs' : acc'.sections = acc.sections := by rw [hstep]
      have hbuild : buildD old new acc.sections.length
          ((tag, i1, i2, j1, j2) :: rest) =
          ((pySlice old i1 i2).map (fun t => (t, (-1 : Int))) ++
            (buildD old new acc.sections.length rest).1,
           (pySlice new j1 j2).map (fun t => (t, (-1 : Int))) ++
            (buildD old new acc.sections.length rest).2.1,
           (buildD old new acc.sections.length rest).2.2) := by
        simp only [buildD]
        rw [if_neg hcol]
      have hsplitOld : applyStatesFrom acc'.phOld 0 acc'.dispOld =
          applyStatesFrom acc.phOld 0 acc.dispOld ++
            (pySlice old i1 i2).map (fun t => (t, (-1 : Int))) := by
        rw [hstep]
        rw [applyStatesFrom_append]
        congr 1
        apply applyStatesFrom_nomatch
        intro q hq
        have := hP1 q hq
        omega
      have hsplitNew : applyStatesFrom acc'.phNew 0 acc'.dispNew =
          applyStatesFrom acc.phNew 0 acc.dispNew ++
            (pySlice new j1 j2).map (fun t => (t, (-1 : Int))) := by
        rw [hstep]
        rw [applyStatesFrom_append]
        congr 1
        apply applyStatesFrom_nomatch
        intro q hq
        have := hP2 q hq
        omega
      refine ⟨?_, ?_, ?_⟩
      · rw [r1, hsplitOld, hsecs', hbuild]
        simp [List.append_assoc]
      · rw [r2, hsplitNew, hsecs', hbuild]
        simp [List.append_assoc]
      · rw [r3, hsecs', hbuild]

/-- `set_diff_text` is the direct construction. -/
theorem set_diff_text_eq_buildD (old new : List String) :
    set_diff_text old new =
      ⟨(buildD old new 0 (get_opcodes old new)).1,
        (buildD old new 0 (get_opcodes old new)).2.1,
        (buildD old new 0 (get_opcodes old new)).2.2⟩ := by
  obtain ⟨r1, r2, r3⟩ := sdt_build old new (get_opcodes old new) CollapseAcc.start
    (get_opcodes_bounds old new) rfl rfl
    (by intro q hq; cases hq) (by intro q hq; cases hq)
  simp only [set_diff_text, collapseFold, applyStates_eq]
  have hz : CollapseAcc.start.sections.length = 0 := rfl
  rw [hz] at r1 r2 r3
  have e1 : applyStatesFrom CollapseAcc.start.phOld 0 CollapseAcc.start.dispOld = [] := rfl
  have e2 : applyStatesFrom CollapseAcc.start.phNew 0 CollapseAcc.start.dispNew = [] := rfl
  rw [e1] at r1
  rw [e2] at r2
  have e3 : CollapseAcc.start.sections = [] := rfl
  rw [e3] at r3
  simp only [List.nil_append] at r1 r2 r3
  rw [r1, r2, r3]

/-! ### Restoring the original text from a displayed document -/

theorem restoreDoc_append (secs : List (List String)) :
    ∀ (l1 l2 : List (String × Int)),
      restoreDoc secs (l1 ++ l2) = restoreDoc secs l1 ++ restoreDoc secs l2 := by
  intro l1 l2
  induction l1 with
  | nil => rfl
  | cons bl rest ih =>
    simp only [List.cons_append, restoreDoc, List.append_eq, ih, List.append_assoc]

theorem restoreDoc_map_neg1 (secs : List (List String)) :
    ∀ l : List String,
      restoreDoc secs (l.map (fun t => (t, (-1 : Int)))) = l := by
  intro l
  induction l with
  | nil => rfl
  | cons t rest ih =>
    simp only [List.map_cons, restoreDoc, ih]
    rw [restoreLine, if_neg (by norm_num)]
    rfl

theorem pySlice_glue (l : List α) (a b c : ℕ) (h1 : a ≤ b) (h2 : b ≤ c) :
    pySlice l a b ++ pySlice l b c = pySlice l a c := by
  unfold pySlice
  have hd : l.drop b = (l.drop a).drop (b - a) := by
    rw [List.drop_drop]
    congr 1
    omega
  rw [hd]
  have hc : c - a = (b - a) + (c - b) := by omega
  rw [hc, List.take_add]

theorem pySlice_inner (l : List α) (i1 i2 c : ℕ) :
    pySlice l (i1 + c) (i2 - c) = ((pySlice l i1 i2).drop c).take (i2 - i1 - 2 * c) := by
  unfold pySlice
  rw [List.drop_take, List.drop_drop, List.take_take]
  have e2 : min (i2 - i1 - 2 * c) (i2 - i1 - c) = i2 - c - (i1 + c) := by omega
  rw [e2]

theorem eraseIdx_getD_lt {γ : Type _} (d : γ) :
    ∀ (l : List γ) (n m : ℕ), m < n → (l.eraseIdx n).getD m d = l.getD m d := by
  intro l
  induction l with
  | nil => intro n m _; rfl
  | cons x xs ih =>
    intro n m h
    cases n with
    | zero => omega
    | succ n =>
      cases m with
      | zero => rfl
      | succ m =>
        show (xs.eraseIdx n).getD m d = xs.getD m d
        exact ih n m (by omega)

theorem eraseIdx_getD_ge {γ : Type _} (d : γ) :
    ∀ (l : List γ) (n m : ℕ), n ≤ m → (l.eraseIdx n).getD m d = l.getD (m + 1) d := by
  intro l
  induction l with
  | nil => intro n m _; rfl
  | cons x xs ih =>
    intro n m h
    cases n with
    | zero => rfl
    | succ n =>
      cases m with
      | zero => omega
      | succ m =>
        show (xs.eraseIdx n).getD m d = xs.getD (m + 1) d
        exact ih n m (by omega)

theorem restoreLine_eraseIdx_lt (secs : List (List String)) (index : ℕ)
    (bl : String × Int)
    (h : bl.2 = -1 ∨ ∃ s : ℕ, s < index ∧ bl.2 = (s : Int) + 1) :
    restoreLine (secs.eraseIdx index) bl = restoreLine secs bl := by
  obtain ⟨t, v⟩ := bl
  unfold restoreLine
  rcases h with h | ⟨s, hs, h⟩
  · have h' : v = -1 := h
    subst h'
    rw [if_neg (by norm_num), if_neg (by norm_num)]
  · have h' : v = (s : Int) + 1 := h
    subst h'
    rw [if_pos (by positivity), if_pos (by positivity)]
    have e : ((s : Int) + 1 - 1).toNat = s := by omega
    rw [e]
    exact eraseIdx_getD_lt [] secs index s hs

theorem restoreLine_eraseIdx_gt (secs : List (List String)) (index : ℕ)
    (bl : String × Int)
    (h : bl.2 = -1 ∨ ∃ s : ℕ, index < s ∧ bl.2 = (s : Int) + 1) :
    restoreLine (secs.eraseIdx index)
        (if (index : Int) + 1 < bl.2 then (bl.1, bl.2 - 1) else bl) =
      restoreLine secs bl := by
  obtain ⟨t, v⟩ := bl
  rcases h with h | ⟨s, hs, h⟩
  · have h' : v = -1 := h
    subst h'
    rw [if_neg (by omega)]
    unfold restoreLine
    rw [if_neg (by norm_num), if_neg (by norm_num)]
  · have h' : v = (s : Int) + 1 := h
    subst h'
    rw [if_pos (by omega)]
    unfold restoreLine
    have e0 : ((t, (s : Int) + 1 - 1) : String × Int).2 = (s : Int) := by
      show (s : Int) + 1 - 1 = (s : Int)
      omega
    rw [e0]
    rw [if_pos (by omega : (0 : Int) < (s : Int)), if_pos (by positivity)]
    have e1 : ((s : Int) - 1).toNat = s - 1 := by omega
    have e2 : ((s : Int) + 1 - 1).toNat = s := by omega
    rw [e1, e2, eraseIdx_getD_ge [] secs index (s - 1) (by omega)]
    have e3 : s - 1 + 1 = s := by omega
    rw [e3]

theorem restoreDoc_congr_map (secs1 secs2 : List (List String))
    (f : String × Int → String × Int) :
    ∀ l : List (String × Int),
      (∀ bl ∈ l, restoreLine secs2 (f bl) = restoreLine secs1 bl) →
      restoreDoc secs2 (l.map f) = restoreDoc secs1 l := by
  intro l
  induction l with
  | nil => intro _; rfl
  | cons bl rest ih =>
    intro h
    simp only [List.map_cons, restoreDoc]
    rw [h bl (List.mem_cons_self _ _), ih (fun x hx => h x (List.mem_cons_of_mem _ hx))]

theorem restoreDoc_congr (secs1 secs2 : List (List String)) :
    ∀ l : List (String × Int),
      (∀ bl ∈ l, restoreLine secs2 bl = restoreLine secs1 bl) →
      restoreDoc secs2 l = restoreDoc secs1 l := by
  intro l
  induction l with
  | nil => intro _; rfl
  | cons bl rest ih =>
    intro h
    simp only [restoreDoc]
    rw [h bl (List.mem_cons_self _ _), ih (fun x hx => h x (List.mem_cons_of_mem _ hx))]

theorem replaceFirstPh_skip (state : Int) (hidden : List String) (t : String)
    (suf : List (String × Int)) :
    ∀ pre : List (String × Int), (∀ bl ∈ pre, bl.2 ≠ state) →
      replaceFirstPh state hidden (pre ++ (t, state) :: suf) =
        pre ++ hidden.map (fun x => (x, (-1 : Int))) ++ suf := by
  intro pre
  induction pre with
  | nil =>
    intro _
    show replaceFirstPh state hidden ((t, state) :: suf) = _
    unfold replaceFirstPh
    rw [if_pos rfl]
    simp
  | cons bl pre ih =>
    intro hne
    have h1 : bl.2 ≠ state := hne bl (List.mem_cons_self _ _)
    show replaceFirstPh state hidden (bl :: (pre ++ (t, state) :: suf)) = _
    unfold replaceFirstPh
    rw [if_neg h1, ih (fun x hx => hne x (List.mem_cons_of_mem _ hx))]
    simp

theorem renumber_append (index : ℕ) (l1 l2 : List (String × Int)) :
    renumber index (l1 ++ l2) = renumber index l1 ++ renumber index l2 :=
  List.map_append _ _ _

theorem renumber_nomatch (index : ℕ) :
    ∀ l : List (String × Int), (∀ bl ∈ l, ¬((index : Int) + 1 < bl.2)) →
      renumber index l = l := by
  intro l
  induction l with
  | nil => intro _; rfl
  | cons bl rest ih =>
    intro h
    unfold renumber
    simp only [List.map_cons]
    rw [if_neg (h bl (List.mem_cons_self _ _))]
    have hr := ih (fun x hx => h x (List.mem_cons_of_mem _ hx))
    unfold renumber at hr
    rw [hr]

theorem renumber_map_neg1 (index : ℕ) (l : List String) :
    renumber index (l.map (fun t => (t, (-1 : Int)))) =
      l.map (fun t => (t, (-1 : Int))) := by
  apply renumber_nomatch
  intro bl hbl
  obtain ⟨t, _, rfl⟩ := List.mem_map.mp hbl
  show ¬((index : Int) + 1 < -1)
  omega

theorem getD_append_len {γ : Type _} (d : γ) :
    ∀ (l1 : List γ) (x : γ) (l2 : List γ), (l1 ++ x :: l2).getD l1.length d = x := by
  intro l1
  induction l1 with
  | nil => intro x l2; rfl
  | cons y ys ih =>
    intro x l2
    show (ys ++ x :: l2).getD ys.length d = x
    exact ih x l2

theorem replaceFirstPh_pass (state : Int) (hidden : List String) :
    ∀ (pre suf : List (String × Int)), (∀ bl ∈ pre, bl.2 ≠ state) →
      replaceFirstPh state hidden (pre ++ suf) =
        pre ++ replaceFirstPh state hidden suf := by
  intro pre
  induction pre with
  | nil => intro suf _; rfl
  | cons bl pre ih =>
    intro suf hne
    have h1 : replaceFirstPh state hidden ((bl :: pre) ++ suf) =
        if bl.2 = state then hidden.map (fun h => (h, (-1 : Int))) ++ (pre ++ suf)
        else bl :: replaceFirstPh state hidden (pre ++ suf) := rfl
    rw [h1, if_neg (hne bl (List.mem_cons_self _ _)),
      ih suf (fun x hx => hne x (List.mem_cons_of_mem _ hx))]
    exact (List.cons_append _ _ _).symm

theorem renumber_cons (index : ℕ) (bl : String × Int) (l : List (String × Int)) :
    renumber index (bl :: l) =
      (if (index : Int) + 1 < bl.2 then (bl.1, bl.2 - 1) else bl) :: renumber index l :=
  rfl

theorem PhD_prepend :
    ∀ (secs : List (List String)) (k : ℕ) (pre doc : List (String × Int)),
      (∀ bl ∈ pre, bl.2 = -1) → PhD k secs doc → PhD k secs (pre ++ doc) := by
  intro secs k pre doc hpre h
  cases secs with
  | nil =>
    simp only [PhD] at h ⊢
    intro bl hbl
    rcases List.mem_append.mp hbl with h1 | h1
    · exact hpre bl h1
    · exact h bl h1
  | cons sec rest =>
    simp only [PhD] at h ⊢
    obtain ⟨p2, suf, rfl, hp2, hrec⟩ := h
    exact ⟨pre ++ p2, suf, by simp,
      fun bl hbl => (List.mem_append.mp hbl).elim (hpre bl) (hp2 bl), hrec⟩

theorem PhD_states :
    ∀ (secs : List (List String)) (k : ℕ) (doc : List (String × Int)),
      PhD k secs doc → ∀ bl ∈ doc,
        bl.2 = -1 ∨ ∃ s : ℕ, k ≤ s ∧ s < k + secs.length ∧ bl.2 = (s : Int) + 1 := by
  intro secs
  induction secs with
  | nil => intro k doc h bl hbl; exact Or.inl (h bl hbl)
  | cons sec rest ih =>
    intro k doc h bl hbl
    simp only [PhD] at h
    obtain ⟨pre, suf, rfl, hpre, hrec⟩ := h
    rcases List.mem_append.mp hbl with h1 | h1
    · exact Or.inl (hpre bl h1)
    · rcases List.mem_cons.mp h1 with rfl | h1
      · exact Or.inr ⟨k, Nat.le_refl _, by simp only [List.length_cons]; omega, rfl⟩
      · rcases ih (k + 1) suf hrec bl h1 with h2 | ⟨s, hs1, hs2, hs3⟩
        · exact Or.inl h2
        · exact Or.inr ⟨s, by omega, by simp only [List.length_cons]; omega, hs3⟩

theorem PhD_renumber (index : ℕ) :
    ∀ (secs : List (List String)) (m : ℕ) (doc : List (String × Int)),
      index + 1 ≤ m → PhD m secs doc → PhD (m - 1) secs (renumber index doc) := by
  intro secs
  induction secs with
  | nil =>
    intro m doc _ h
    simp only [PhD] at h ⊢
    intro bl hbl
    obtain ⟨x, hx, rfl⟩ := List.mem_map.mp hbl
    have hx2 := h x hx
    show (if (index : Int) + 1 < x.2 then (x.1, x.2 - 1) else x).2 = -1
    rw [hx2, if_neg (by omega)]
    exact hx2
  | cons sec rest ih =>
    intro m doc hm h
    simp only [PhD] at h ⊢
    obtain ⟨pre, suf, rfl, hpre, hrec⟩ := h
    refine ⟨renumber index pre, renumber index suf, ?_, ?_, ?_⟩
    · rw [renumber_append, renumber_cons]
      have hifp : (index : Int) + 1 <
          ((placeholderText sec.length, (m : Int) + 1) : String × Int).2 := by
        show (index : Int) + 1 < (m : Int) + 1
        omega
      rw [if_pos hifp]
      have hpair : ((placeholderText sec.length, (m : Int) + 1) : String × Int).2 - 1 =
          ((m - 1 : ℕ) : Int) + 1 := by
        show (m : Int) + 1 - 1 = ((m - 1 : ℕ) : Int) + 1
        omega
      rw [hpair]
    · intro bl hbl
      obtain ⟨x, hx, rfl⟩ := List.mem_map.mp hbl
      have hx2 := hpre x hx
      show (if (index : Int) + 1 < x.2 then (x.1, x.2 - 1) else x).2 = -1
      rw [hx2, if_neg (by omega)]
      exact hx2
    · have hres := ih (m + 1) suf (by omega) hrec
      have e : m + 1 - 1 = m - 1 + 1 := by omega
      rw [e] at hres
      exact hres

theorem PhD_split :
    ∀ (secs : List (List String)) (k index : ℕ) (doc : List (String × Int)),
      PhD k secs doc → index < secs.length →
      ∃ pre suf,
        doc = pre ++ (placeholderText (secs.getD index []).length,
            ((k + index : ℕ) : Int) + 1) :: suf ∧
        (∀ bl ∈ pre, bl.2 = -1 ∨ ∃ s : ℕ, s < k + index ∧ bl.2 = (s : Int) + 1) ∧
        (∀ bl ∈ suf, bl.2 = -1 ∨ ∃ s : ℕ, k + index < s ∧ bl.2 = (s : Int) + 1) := by
  intro secs
  induction secs with
  | nil => intro k index doc _ h; simp at h
  | cons sec rest ih =>
    intro k index doc h hidx
    simp only [PhD] at h
    obtain ⟨pre, suf, rfl, hpre, hrec⟩ := h
    cases index with
    | zero =>
      refine ⟨pre, suf, by simp, ?_, ?_⟩
      · intro bl hbl
        exact Or.inl (hpre bl hbl)
      · intro bl hbl
        rcases PhD_states rest (k + 1) suf hrec bl hbl with h2 | ⟨s, hs1, _, hs3⟩
        · exact Or.inl h2
        · exact Or.inr ⟨s, by omega, hs3⟩
    | succ index =>
      obtain ⟨pre2, suf2, rfl, hpre2, hsuf2⟩ :=
        ih (k + 1) index suf hrec (by simp only [List.length_cons] at hidx; omega)
      refine ⟨pre ++ (placeholderText sec.length, (k : Int) + 1) :: pre2, suf2, ?_, ?_, ?_⟩
      · have e : (k + 1 : ℕ) + index = k + (index + 1) := by omega
        rw [← e]
        simp [List.getD_cons_succ, List.append_assoc]
      · intro bl hbl
        rcases List.mem_append.mp hbl with h1 | h1
        · exact Or.inl (hpre bl h1)
        · rcases List.mem_cons.mp h1 with rfl | h1
          · exact Or.inr ⟨k, by omega, rfl⟩
          · rcases hpre2 bl h1 with h2 | ⟨s, hs1, hs3⟩
            · exact Or.inl h2
            · exact Or.inr ⟨s, by omega, hs3⟩
      · intro bl hbl
        rcases hsuf2 bl hbl with h2 | ⟨s, hs1, hs3⟩
        · exact Or.inl h2
        · exact Or.inr ⟨s, by omega, hs3⟩

theorem PhD_expand :
    ∀ (index : ℕ) (secs : List (List String)) (k : ℕ) (doc : List (String × Int)),
      PhD k secs doc → index < secs.length →
      PhD k (secs.eraseIdx index)
        (renumber (k + index)
          (replaceFirstPh (((k + index : ℕ) : Int) + 1) (secs.getD index []) doc)) := by
  intro index
  induction index with
  | zero =>
    intro secs k doc h hidx
    cases secs with
    | nil => simp at hidx
    | cons sec rest =>
      simp only [PhD] at h
      obtain ⟨pre, suf, rfl, hpre, hrec⟩ := h
      simp only [Nat.add_zero, List.getD_cons_zero]
      rw [replaceFirstPh_skip _ _ _ _ pre (fun bl hbl => by
        have := hpre bl hbl
        omega)]
      rw [renumber_append, renumber_append,
        renumber_nomatch k pre (fun bl hbl => by
          have := hpre bl hbl
          omega),
        renumber_map_neg1]
      have he : (sec :: rest).eraseIdx 0 = rest := rfl
      rw [he, List.append_assoc]
      apply PhD_prepend rest k pre _ hpre
      apply PhD_prepend rest k _ _ (fun bl hbl => by
        obtain ⟨x, _, rfl⟩ := List.mem_map.mp hbl
        rfl)
      have hres := PhD_renumber k rest (k + 1) suf (by omega) hrec
      simpa using hres
  | succ index ih =>
    intro secs k doc h hidx
    cases secs with
    | nil => simp at hidx
    | cons sec rest =>
      simp only [PhD] at h
      obtain ⟨pre, suf, rfl, hpre, hrec⟩ := h
      have he : (sec :: rest).eraseIdx (index + 1) = sec :: rest.eraseIdx index := rfl
      have hg : (sec :: rest).getD (index + 1) [] = rest.getD index [] := rfl
      rw [he, hg]
      have hne : ∀ bl ∈ pre ++ [((placeholderText sec.length, (k : Int) + 1) : String × Int)],
          bl.2 ≠ ((k + (index + 1) : ℕ) : Int) + 1 := by
        intro bl hbl
        rcases List.mem_append.mp hbl with h1 | h1
        · have := hpre bl h1
          omega
        · rcases List.mem_singleton.mp h1 with rfl
          show (k : Int) + 1 ≠ ((k + (index + 1) : ℕ) : Int) + 1
          push_cast
          omega
      have hsplit2 : pre ++ (placeholderText sec.length, (k : Int) + 1) :: suf =
          (pre ++ [((placeholderText sec.length, (k : Int) + 1) : String × Int)]) ++ suf := by
        simp
      rw [hsplit2, replaceFirstPh_pass _ _ _ _ hne, List.append_assoc,
        List.singleton_append, renumber_append, renumber_cons,
        if_neg (by
          show ¬(((k + (index + 1) : ℕ) : Int) + 1 < (k : Int) + 1)
          push_cast
          omega),
        renumber_nomatch _ pre (fun bl hbl => by
          have := hpre bl hbl
          omega)]
      simp only [PhD]
      refine ⟨pre, _, rfl, hpre, ?_⟩
      have hres := ih rest (k + 1) suf hrec (by simp only [List.length_cons] at hidx; omega)
      have e : k + 1 + index = k + (index + 1) := by omega
      rw [e] at hres
      exact hres

/-! ### Structure of the directly built displayed documents -/

/-- Both displayed documents built by `buildD` have the placeholder structure
`PhD` over the sections `buildD` creates. -/
theorem buildD_PhD (old new : List String) :
    ∀ (ops : List Opcode) (ci0 : ℕ),
      (∀ op ∈ ops, OpBounds old new op) →
      PhD ci0 (buildD old new ci0 ops).2.2 (buildD old new ci0 ops).1 ∧
      PhD ci0 (buildD old new ci0 ops).2.2 (buildD old new ci0 ops).2.1 := by
  intro ops
  induction ops with
  | nil =>
    intro ci0 _
    constructor <;> (intro bl hbl; cases hbl)
  | cons op rest ih =>
    intro ci0 hbd
    rcases op with ⟨tag, i1, i2, j1, j2⟩
    obtain ⟨ob1, ob2, ob3, ob4, ob5⟩ := hbd _ (List.mem_cons_self _ _)
    have hb1 : i1 ≤ i2 := ob1
    have hb2 : i2 ≤ old.length := ob2
    have hb3 : j1 ≤ j2 := ob3
    have hb4 : j2 ≤ new.length := ob4
    have hbd' : ∀ op ∈ rest, OpBounds old new op :=
      fun op hop => hbd op (List.mem_cons_of_mem _ hop)
    by_cases hcol : tag = Tag.equal ∧ COLLAPSE_THRESHOLD_LINES < i2 - i1
    · have hT : (5 : ℕ) < i2 - i1 := hcol.2
      have hbuild : buildD old new ci0 ((tag, i1, i2, j1, j2) :: rest) =
          ((pySlice old i1 (i1 + 3)).map (fun t => (t, (-1 : Int))) ++
            (placeholderText (i2 - i1 - 2 * 3), (ci0 : Int) + 1) ::
              ((pySlice old (i2 - 3) i2).map (fun t => (t, (-1 : Int))) ++
                (buildD old new (ci0 + 1) rest).1),
           (pySlice new j1 (j1 + 3)).map (fun t => (t, (-1 : Int))) ++
            (placeholderText (i2 - i1 - 2 * 3), (ci0 : Int) + 1) ::
              ((pySlice new (j2 - 3) j2).map (fun t => (t, (-1 : Int))) ++
                (buildD old new (ci0 + 1) rest).2.1),
           pySlice old (i1 + 3) (i2 - 3) ::
             (buildD old new (ci0 + 1) rest).2.2) := by
        simp only [buildD]
        rw [if_pos hcol]
        simp [COLLAPSE_CONTEXT_LINES, List.cons_append, List.append_assoc]
      have hmidlen : (pySlice old (i1 + 3) (i2 - 3)).length = i2 - i1 - 2 * 3 := by
        rw [pySlice_length old (i1 + 3) (i2 - 3) (by omega) (by omega)]
        omega
      obtain ⟨ihO, ihN⟩ := ih (ci0 + 1) hbd'
      rw [hbuild]
      constructor
      · simp only [PhD]
        refine ⟨(pySlice old i1 (i1 + 3)).map (fun t => (t, (-1 : Int))),
          (pySlice old (i2 - 3) i2).map (fun t => (t, (-1 : Int))) ++
            (buildD old new (ci0 + 1) rest).1, ?_, ?_, ?_⟩
        · rw [hmidlen]
        · intro bl hbl
          obtain ⟨x, _, rfl⟩ := List.mem_map.mp hbl
          rfl
        · apply PhD_prepend _ _ _ _ (fun bl hbl => by
            obtain ⟨x, _, rfl⟩ := List.mem_map.mp hbl
            rfl)
          exact ihO
      · simp only [PhD]
        refine ⟨(pySlice new j1 (j1 + 3)).map (fun t => (t, (-1 : Int))),
          (pySlice new (j2 - 3) j2).map (fun t => (t, (-1 : Int))) ++
            (buildD old new (ci0 + 1) rest).2.1, ?_, ?_, ?_⟩
        · rw [hmidlen]
        · intro bl hbl
          obtain ⟨x, _, rfl⟩ := List.mem_map.mp hbl
          rfl
        · apply PhD_prepend _ _ _ _ (fun bl hbl => by
            obtain ⟨x, _, rfl⟩ := List.mem_map.mp hbl
            rfl)
          exact ihN
    · have hbuild : buildD old new ci0 ((tag, i1, i2, j1, j2) :: rest) =
          ((pySlice old i1 i2).map (fun t => (t, (-1 : Int))) ++
            (buildD old new ci0 rest).1,
           (pySlice new j1 j2).map (fun t => (t, (-1 : Int))) ++
            (buildD old new ci0 rest).2.1,
           (buildD old new ci0 rest).2.2) := by
        simp only [buildD]
        rw [if_neg hcol]
      obtain ⟨ihO, ihN⟩ := ih ci0 hbd'
      rw [hbuild]
      constructor
      · apply PhD_prepend _ _ _ _ (fun bl hbl => by
          obtain ⟨x, _, rfl⟩ := List.mem_map.mp hbl
          rfl)
        exact ihO
      · apply PhD_prepend _ _ _ _ (fun bl hbl => by
          obtain ⟨x, _, rfl⟩ := List.mem_map.mp hbl
          rfl)
        exact ihN

/-- Every collapsed section created by `buildD` is the interior of a collapsed
equal run, stored from the old sequence. -/
theorem buildD_sections_mem (old new : List String) :
    ∀ (ops : List Opcode) (ci0 : ℕ) (sec : List String),
      sec ∈ (buildD old new ci0 ops).2.2 →
      ∃ op ∈ ops, op.1 = Tag.equal ∧ COLLAPSE_THRESHOLD_LINES < op.2.2.1 - op.2.1 ∧
        sec = pySlice old (op.2.1 + COLLAPSE_CONTEXT_LINES)
          (op.2.2.1 - COLLAPSE_CONTEXT_LINES) := by
  intro ops
  induction ops with
  | nil => intro ci0 sec h; cases h
  | cons op rest ih =>
    intro ci0 sec h
    rcases op with ⟨tag, i1, i2, j1, j2⟩
    by_cases hcol : tag = Tag.equal ∧ COLLAPSE_THRESHOLD_LINES < i2 - i1
    · have hbuild : (buildD old new ci0 ((tag, i1, i2, j1, j2) :: rest)).2.2 =
          pySlice old (i1 + 3) (i2 - 3) :: (buildD old new (ci0 + 1) rest).2.2 := by
        simp only [buildD]
        rw [if_pos hcol]
        rfl
      rw [hbuild] at h
      rcases List.mem_cons.mp h with rfl | h
      · exact ⟨(tag, i1, i2, j1, j2), List.mem_cons_self _ _, hcol.1, hcol.2, rfl⟩
      · obtain ⟨op, hop, h1, h2, h3⟩ := ih (ci0 + 1) sec h
        exact ⟨op, List.mem_cons_of_mem _ hop, h1, h2, h3⟩
    · have hbuild : (buildD old new ci0 ((tag, i1, i2, j1, j2) :: rest)).2.2 =
          (buildD old new ci0 rest).2.2 := by
        simp only [buildD]
        rw [if_neg hcol]
      rw [hbuild] at h
      obtain ⟨op, hop, h1, h2, h3⟩ := ih ci0 sec h
      exact ⟨op, List.mem_cons_of_mem _ hop, h1, h2, h3⟩

/-- Restoring the hidden lines of the directly built documents reconstructs
exactly the concatenation of the per-opcode slices of `old` resp. `new`. -/
theorem buildD_restore (old new : List String) :
    ∀ (ops : List Opcode) (secs0 extra : List (List String)),
      (∀ op ∈ ops, OpBounds old new op) →
      restoreDoc (secs0 ++ ((buildD old new secs0.length ops).2.2 ++ extra))
          (buildD old new secs0.length ops).1 = concatSlicesI old ops ∧
      restoreDoc (secs0 ++ ((buildD old new secs0.length ops).2.2 ++ extra))
          (buildD old new secs0.length ops).2.1 = concatSlicesJ new ops := by
  intro ops
  induction ops with
  | nil => intro secs0 extra _; constructor <;> rfl
  | cons op rest ih =>
    intro secs0 extra hbd
    rcases op with ⟨tag, i1, i2, j1, j2⟩
    obtain ⟨ob1, ob2, ob3, ob4, ob5⟩ := hbd _ (List.mem_cons_self _ _)
    have hb1 : i1 ≤ i2 := ob1
    have hb2 : i2 ≤ old.length := ob2
    have hb3 : j1 ≤ j2 := ob3
    have hb4 : j2 ≤ new.length := ob4
    have hbd' : ∀ op ∈ rest, OpBounds old new op :=
      fun op hop => hbd op (List.mem_cons_of_mem _ hop)
    by_cases hcol : tag = Tag.equal ∧ COLLAPSE_THRESHOLD_LINES < i2 - i1
    · have hT : (5 : ℕ) < i2 - i1 := hcol.2
      have heqlen : i2 - i1 = j2 - j1 := (ob5 hcol.1).1
      have heqslice : pySlice old i1 i2 = pySlice new j1 j2 := (ob5 hcol.1).2
      have hbuild : buildD old new secs0.length ((tag, i1, i2, j1, j2) :: rest) =
          ((pySlice old i1 (i1 + 3)).map (fun t => (t, (-1 : Int))) ++
            (placeholderText (i2 - i1 - 2 * 3), (secs0.length : Int) + 1) ::
              ((pySlice old (i2 - 3) i2).map (fun t => (t, (-1 : Int))) ++
                (buildD old new (secs0.length + 1) rest).1),
           (pySlice new j1 (j1 + 3)).map (fun t => (t, (-1 : Int))) ++
            (placeholderText (i2 - i1 - 2 * 3), (secs0.length : Int) + 1) ::
              ((pySlice new (j2 - 3) j2).map (fun t => (t, (-1 : Int))) ++
                (buildD old new (secs0.length + 1) rest).2.1),
           pySlice old (i1 + 3) (i2 - 3) ::
             (buildD old new (secs0.length + 1) rest).2.2) := by
        simp only [buildD]
        rw [if_pos hcol]
        simp [COLLAPSE_CONTEXT_LINES, List.cons_append, List.append_assoc]
      have hmid_new : pySlice old (i1 + 3) (i2 - 3) = pySlice new (j1 + 3) (j2 - 3) := by
        rw [pySlice_inner old i1 i2 3, pySlice_inner new j1 j2 3, heqslice, heqlen]
      have hsecs1 : (secs0 ++ [pySlice old (i1 + 3) (i2 - 3)]).length = secs0.length + 1 := by
        simp
      obtain ⟨ihO, ihN⟩ := ih (secs0 ++ [pySlice old (i1 + 3) (i2 - 3)]) extra hbd'
      rw [hsecs1] at ihO ihN
      have hS : secs0 ++ ((pySlice old (i1 + 3) (i2 - 3) ::
            (buildD old new (secs0.length + 1) rest).2.2) ++ extra) =
          (secs0 ++ [pySlice old (i1 + 3) (i2 - 3)]) ++
            ((buildD old new (secs0.length + 1) rest).2.2 ++ extra) := by
        simp
      have hph : restoreLine
          ((secs0 ++ [pySlice old (i1 + 3) (i2 - 3)]) ++
            ((buildD old new (secs0.length + 1) rest).2.2 ++ extra))
          (placeholderText (i2 - i1 - 2 * 3), (secs0.length : Int) + 1) =
          pySlice old (i1 + 3) (i2 - 3) := by
        unfold restoreLine
        rw [if_pos (by positivity)]
        have e : ((secs0.length : Int) + 1 - 1).toNat = secs0.length := by omega
        rw [e]
        have hre : (secs0 ++ [pySlice old (i1 + 3) (i2 - 3)]) ++
            ((buildD old new (secs0.length + 1) rest).2.2 ++ extra) =
            secs0 ++ pySlice old (i1 + 3) (i2 - 3) ::
              ((buildD old new (secs0.length + 1) rest).2.2 ++ extra) := by
          simp
        rw [hre]
        exact getD_append_len [] secs0 _ _
      rw [hbuild]
      dsimp only
      rw [hS]
      constructor
      · rw [restoreDoc_append, restoreDoc_map_neg1]
        have hcons : restoreDoc ((secs0 ++ [pySlice old (i1 + 3) (i2 - 3)]) ++
              ((buildD old new (secs0.length + 1) rest).2.2 ++ extra))
            ((placeholderText (i2 - i1 - 2 * 3), (secs0.length : Int) + 1) ::
              ((pySlice old (i2 - 3) i2).map (fun t => (t, (-1 : Int))) ++
                (buildD old new (secs0.length + 1) rest).1)) =
            pySlice old (i1 + 3) (i2 - 3) ++
              (pySlice old (i2 - 3) i2 ++ concatSlicesI old rest) := by
          show restoreLine _ _ ++ restoreDoc _ _ = _
          rw [hph, restoreDoc_append, restoreDoc_map_neg1, ihO]
        rw [hcons]
        show pySlice old i1 (i1 + 3) ++ (pySlice old (i1 + 3) (i2 - 3) ++
            (pySlice old (i2 - 3) i2 ++ concatSlicesI old rest)) =
          pySlice old i1 i2 ++ concatSlicesI old rest
        calc pySlice old i1 (i1 + 3) ++ (pySlice old (i1 + 3) (i2 - 3) ++
              (pySlice old (i2 - 3) i2 ++ concatSlicesI old rest))
            = (pySlice old i1 (i1 + 3) ++ (pySlice old (i1 + 3) (i2 - 3) ++
                pySlice old (i2 - 3) i2)) ++ concatSlicesI old rest := by
              simp [List.append_assoc]
          _ = pySlice old i1 i2 ++ concatSlicesI old rest := by
              rw [pySlice_glue old (i1 + 3) (i2 - 3) i2 (by omega) (by omega),
                pySlice_glue old i1 (i1 + 3) i2 (by omega) (by omega)]
      · rw [restoreDoc_append, restoreDoc_map_neg1]
        have hcons : restoreDoc ((secs0 ++ [pySlice old (i1 + 3) (i2 - 3)]) ++
              ((buildD old new (secs0.length + 1) rest).2.2 ++ extra))
            ((placeholderText (i2 - i1 - 2 * 3), (secs0.length : Int) + 1) ::
              ((pySlice new (j2 - 3) j2).map (fun t => (t, (-1 : Int))) ++
                (buildD old new (secs0.length + 1) rest).2.1)) =
            pySlice old (i1 + 3) (i2 - 3) ++
              (pySlice new (j2 - 3) j2 ++ concatSlicesJ new rest) := by
          show restoreLine _ _ ++ restoreDoc _ _ = _
          rw [hph, restoreDoc_append, restoreDoc_map_neg1, ihN]
        rw [hcons, hmid_new]
        show pySlice new j1 (j1 + 3) ++ (pySlice new (j1 + 3) (j2 - 3) ++
            (pySlice new (j2 - 3) j2 ++ concatSlicesJ new rest)) =
          pySlice new j1 j2 ++ concatSlicesJ new rest
        calc pySlice new j1 (j1 + 3) ++ (pySlice new (j1 + 3) (j2 - 3) ++
              (pySlice new (j2 - 3) j2 ++ concatSlicesJ new rest))
            = (pySlice new j1 (j1 + 3) ++ (pySlice new (j1 + 3) (j2 - 3) ++
                pySlice new (j2 - 3) j2)) ++ concatSlicesJ new rest := by
              simp [List.append_assoc]
          _ = pySlice new j1 j2 ++ concatSlicesJ new rest := by
              rw [pySlice_glue new (j1 + 3) (j2 - 3) j2 (by omega) (by omega),
                pySlice_glue new j1 (j1 + 3) j2 (by omega) (by omega)]
    · have hbuild : buildD old new secs0.length ((tag, i1, i2, j1, j2) :: rest) =
          ((pySlice old i1 i2).map (fun t => (t, (-1 : Int))) ++
            (buildD old new secs0.length rest).1,
           (pySlice new j1 j2).map (fun t => (t, (-1 : Int))) ++
            (buildD old new secs0.length rest).2.1,
           (buildD old new secs0.length rest).2.2) := by
        simp only [buildD]
        rw [if_neg hcol]
      obtain ⟨ihO, ihN⟩ := ih secs0 extra hbd'
      rw [hbuild]
      dsimp only
      constructor
      · rw [restoreDoc_append, restoreDoc_map_neg1, ihO]
        rfl
      · rw [restoreDoc_append, restoreDoc_map_neg1, ihN]
        rfl

/-! ### Expansion preserves the document structure and the restored text -/

theorem restoreDoc_cons (secs : List (List String)) (bl : String × Int)
    (l : List (String × Int)) :
    restoreDoc secs (bl :: l) = restoreLine secs bl ++ restoreDoc secs l :=
  rfl

/-- An in-range expansion splices the stored lines in place of the (unique)
placeholder of the requested section, renumbers only the later placeholders,
and leaves the restored original text unchanged. -/
theorem expand_core (secs : List (List String)) (doc : List (String × Int)) (index : ℕ)
    (h : PhD 0 secs doc) (hidx : index < secs.length) :
    ∃ pre suf,
      doc = pre ++ (placeholderText ((secs.getD index []).length),
          (index : Int) + 1) :: suf ∧
      renumber index (replaceFirstPh ((index : Int) + 1) (secs.getD index []) doc) =
        pre ++ (secs.getD index []).map (fun x => (x, (-1 : Int))) ++
          renumber index suf ∧
      restoreDoc (secs.eraseIdx index)
          (renumber index (replaceFirstPh ((index : Int) + 1) (secs.getD index []) doc)) =
        restoreDoc secs doc := by
  obtain ⟨pre, suf, heq, hpre, hsuf⟩ := PhD_split secs 0 index doc h hidx
  simp only [Nat.zero_add] at heq hpre hsuf
  have hpre_ne : ∀ bl ∈ pre, bl.2 ≠ (index : Int) + 1 := by
    intro bl hbl
    rcases hpre bl hbl with h2 | ⟨s, hs1, hs3⟩ <;> omega
  have hrfp : replaceFirstPh ((index : Int) + 1) (secs.getD index []) doc =
      pre ++ (secs.getD index []).map (fun x => (x, (-1 : Int))) ++ suf := by
    rw [heq]
    exact replaceFirstPh_skip _ _ _ _ pre hpre_ne
  have hpre_nr : ∀ bl ∈ pre, ¬((index : Int) + 1 < bl.2) := by
    intro bl hbl
    rcases hpre bl hbl with h2 | ⟨s, hs1, hs3⟩ <;> omega
  have hren : renumber index
      (pre ++ (secs.getD index []).map (fun x => (x, (-1 : Int))) ++ suf) =
      pre ++ (secs.getD index []).map (fun x => (x, (-1 : Int))) ++
        renumber index suf := by
    rw [renumber_append, renumber_append, renumber_nomatch index pre hpre_nr,
      renumber_map_neg1]
  refine ⟨pre, suf, heq, by rw [hrfp, hren], ?_⟩
  have e1 : restoreDoc (secs.eraseIdx index) pre = restoreDoc secs pre :=
    restoreDoc_congr secs _ pre
      (fun bl hbl => restoreLine_eraseIdx_lt secs index bl (hpre bl hbl))
  have e2 : restoreDoc (secs.eraseIdx index)
      ((secs.getD index []).map (fun x => (x, (-1 : Int)))) = secs.getD index [] :=
    restoreDoc_map_neg1 _ _
  have e3 : restoreDoc (secs.eraseIdx index) (renumber index suf) =
      restoreDoc secs suf := by
    show restoreDoc (secs.eraseIdx index)
        (suf.map (fun bl => if (index : Int) + 1 < bl.2 then (bl.1, bl.2 - 1) else bl)) =
      restoreDoc secs suf
    exact restoreDoc_congr_map secs _ _ suf
      (fun bl hbl => restoreLine_eraseIdx_gt secs index bl (hsuf bl hbl))
  have hphl : restoreLine secs
      (placeholderText ((secs.getD index []).length), (index : Int) + 1) =
      secs.getD index [] := by
    unfold restoreLine
    rw [if_pos (by positivity)]
    have e : ((index : Int) + 1 - 1).toNat = index := by omega
    rw [e]
  have eL : restoreDoc (secs.eraseIdx index)
      (pre ++ (secs.getD index []).map (fun x => (x, (-1 : Int))) ++
        renumber index suf) =
      restoreDoc (secs.eraseIdx index) pre ++
        restoreDoc (secs.eraseIdx index)
          ((secs.getD index []).map (fun x => (x, (-1 : Int)))) ++
        restoreDoc (secs.eraseIdx index) (renumber index suf) := by
    rw [restoreDoc_append, restoreDoc_append]
  have eR : restoreDoc secs
      (pre ++ (placeholderText ((secs.getD index []).length),
        (index : Int) + 1) :: suf) =
      restoreDoc secs pre ++
        (restoreLine secs (placeholderText ((secs.getD index []).length),
          (index : Int) + 1) ++ restoreDoc secs suf) := by
    rw [restoreDoc_append, restoreDoc_cons]
  rw [hrfp, hren, heq, eL, eR, e1, e2, e3, hphl]
  rw [List.append_assoc]

/-- Both displayed documents keep the placeholder structure over the current
sections, and both restore to an unchanged original text, across any call of
`expand_section` — in range or not. -/
theorem expand_section_pres (st : EditorState) (idx : Int)
    (h1 : PhD 0 st.collapsed_sections st.displayedOld)
    (h2 : PhD 0 st.collapsed_sections st.displayedNew) :
    (PhD 0 (expand_section st idx).collapsed_sections
        (expand_section st idx).displayedOld ∧
      PhD 0 (expand_section st idx).collapsed_sections
        (expand_section st idx).displayedNew) ∧
    restoreDoc (expand_section st idx).collapsed_sections
        (expand_section st idx).displayedOld =
      restoreDoc st.collapsed_sections st.displayedOld ∧
    restoreDoc (expand_section st idx).collapsed_sections
        (expand_section st idx).displayedNew =
      restoreDoc st.collapsed_sections st.displayedNew := by
  unfold expand_section
  by_cases hg : 0 ≤ idx ∧ idx < (st.collapsed_sections.length : Int)
  · rw [if_pos hg]
    have hidx : idx.toNat < st.collapsed_sections.length := by omega
    have hcomp : expandSectionImpl st idx.toNat =
        ⟨renumber idx.toNat (replaceFirstPh ((idx.toNat : Int) + 1)
            (st.collapsed_sections.getD idx.toNat []) st.displayedOld),
          renumber idx.toNat (replaceFirstPh ((idx.toNat : Int) + 1)
            (st.collapsed_sections.getD idx.toNat []) st.displayedNew),
          st.collapsed_sections.eraseIdx idx.toNat⟩ := rfl
    rw [hcomp]
    obtain ⟨_, _, _, _, hresO⟩ := expand_core st.collapsed_sections st.displayedOld
      idx.toNat h1 hidx
    obtain ⟨_, _, _, _, hresN⟩ := expand_core st.collapsed_sections st.displayedNew
      idx.toNat h2 hidx
    have hpdO := PhD_expand idx.toNat st.collapsed_sections 0 st.displayedOld h1 hidx
    have hpdN := PhD_expand idx.toNat st.collapsed_sections 0 st.displayedNew h2 hidx
    simp only [Nat.zero_add] at hpdO hpdN
    exact ⟨⟨hpdO, hpdN⟩, hresO, hresN⟩
  · rw [if_neg hg]
    exact ⟨⟨h1, h2⟩, rfl, rfl⟩

/-- The initial editor state of `set_diff_text` has the placeholder structure
and restores to the two original texts. -/
theorem set_diff_text_inv (old new : List String) :
    (PhD 0 (set_diff_text old new).collapsed_sections
        (set_diff_text old new).displayedOld ∧
      PhD 0 (set_diff_text old new).collapsed_sections
        (set_diff_text old new).displayedNew) ∧
    restoreDoc (set_diff_text old new).collapsed_sections
        (set_diff_text old new).displayedOld = old ∧
    restoreDoc (set_diff_text old new).collapsed_sections
        (set_diff_text old new).displayedNew = new := by
  rw [set_diff_text_eq_buildD]
  have hbd := get_opcodes_bounds old new
  have hz : (0 : ℕ) = ([] : List (List String)).length := rfl
  obtain ⟨hpO, hpN⟩ := buildD_PhD old new (get_opcodes old new) 0 hbd
  obtain ⟨hrO, hrN⟩ := buildD_restore old new (get_opcodes old new) [] [] hbd
  simp only [List.nil_append, List.append_nil, List.length_nil] at hrO hrN
  have hcov := gen_covers strCruncher old new false
  refine ⟨⟨hpO, hpN⟩, ?_, ?_⟩
  · show restoreDoc (buildD old new 0 (get_opcodes old new)).2.2
        (buildD old new 0 (get_opcodes old new)).1 = old
    rw [hrO]
    exact hcov.2.2.1
  · show restoreDoc (buildD old new 0 (get_opcodes old new)).2.2
        (buildD old new 0 (get_opcodes old new)).2.1 = new
    rw [hrN]
    exact hcov.2.2.2

/-- After `set_diff_text` and any sequence of `expand_section` calls, the
displayed documents keep the placeholder structure and still restore to the
original texts. -/
theorem editor_inv (old new : List String) (idxs : List Int) :
    (PhD 0 (idxs.foldl expand_section (set_diff_text old new)).collapsed_sections
        (idxs.foldl expand_section (set_diff_text old new)).displayedOld ∧
      PhD 0 (idxs.foldl expand_section (set_diff_text old new)).collapsed_sections
        (idxs.foldl expand_section (set_diff_text old new)).displayedNew) ∧
    restoreDoc (idxs.foldl expand_section (set_diff_text old new)).collapsed_sections
        (idxs.foldl expand_section (set_diff_text old new)).displayedOld = old ∧
    restoreDoc (idxs.foldl expand_section (set_diff_text old new)).collapsed_sections
        (idxs.foldl expand_section (set_diff_text old new)).displayedNew = new := by
  apply foldl_inv expand_section (fun st =>
    (PhD 0 st.collapsed_sections st.displayedOld ∧
      PhD 0 st.collapsed_sections st.displayedNew) ∧
    restoreDoc st.collapsed_sections st.displayedOld = old ∧
    restoreDoc st.collapsed_sections st.displayedNew = new)
  · exact set_diff_text_inv old new
  · intro s x _ hP
    obtain ⟨⟨p1, p2⟩, r1, r2⟩ := hP
    obtain ⟨⟨q1, q2⟩, s1, s2⟩ := expand_section_pres s x p1 p2
    exact ⟨⟨q1, q2⟩, s1.trans r1, s2.trans r2⟩

/-! ### Claim theorems for the collapse manager -/

/-- The value of `_build_cache` at each displayed block is the starting
counter plus the number of original lines the blocks before it stand for: a
normal line advances the counter by one, a placeholder by its section's
hidden-line count (a stale placeholder index contributes nothing, exactly as
the code's bounds check does). -/
theorem build_cache_eq (secs : List (List String)) :
    ∀ (doc : List (String × Int)) (n : ℕ),
      build_cache secs doc n =
        (List.range doc.length).map
          (fun k => n + (restoreDoc secs (doc.take k)).length) := by
  intro doc
  induction doc with
  | nil => intro n; rfl
  | cons bl rest ih =>
    intro n
    have hbc : build_cache secs (bl :: rest) n =
        n :: build_cache secs rest
          (if 0 < bl.2 then
            (if (bl.2 - 1).toNat < secs.length then
              (secs.getD (bl.2 - 1).toNat []).length
             else 0) + n
           else n + 1) := rfl
    have hn' : (if 0 < bl.2 then
        (if (bl.2 - 1).toNat < secs.length then
          (secs.getD (bl.2 - 1).toNat []).length
         else 0) + n
       else n + 1) = n + (restoreLine secs bl).length := by
      unfold restoreLine
      by_cases hb : 0 < bl.2
      · rw [if_pos hb, if_pos hb]
        by_cases hv : (bl.2 - 1).toNat < secs.length
        · rw [if_pos hv]
          omega
        · rw [if_neg hv, List.getD_eq_default]
          · simp
          · omega
      · rw [if_neg hb, if_neg hb]
        rfl
    rw [hbc, hn', ih, List.length_cons, List.range_succ_eq_map, List.map_cons,
      List.map_map]
    congr 1
    refine List.map_congr_left (fun k _ => ?_)
    show n + (restoreLine secs bl).length + (restoreDoc secs (rest.take k)).length =
      n + (restoreDoc secs ((bl :: rest).take (k + 1))).length
    rw [List.take_succ_cons, restoreDoc_cons, List.length_append]
    omega

/-- C8: building the original-line-number cache walks the displayed blocks
once starting at original line 1, advancing by one per normal line and by the
referenced section's hidden-line count per placeholder; the resulting value
at each block is one plus the number of original lines restored before that
block, and after any sequence of expansions (after each of which the cache is
rebuilt from the current document) the restored document is still exactly the
original text, so the mapping remains consistent. -/
theorem build_cache_consistent (old new : List String) (idxs : List Int) :
    build_cache
        (idxs.foldl expand_section (set_diff_text old new)).collapsed_sections
        (idxs.foldl expand_section (set_diff_text old new)).displayedOld 1 =
      (List.range
          (idxs.foldl expand_section (set_diff_text old new)).displayedOld.length).map
        (fun k => 1 + (restoreDoc
          (idxs.foldl expand_section (set_diff_text old new)).collapsed_sections
          ((idxs.foldl expand_section (set_diff_text old new)).displayedOld.take k)).length) ∧
    restoreDoc (idxs.foldl expand_section (set_diff_text old new)).collapsed_sections
        (idxs.foldl expand_section (set_diff_text old new)).displayedOld = old ∧
    restoreDoc (idxs.foldl expand_section (set_diff_text old new)).collapsed_sections
        (idxs.foldl expand_section (set_diff_text old new)).displayedNew = new :=
  ⟨build_cache_eq _ _ 1, (editor_inv old new idxs).2.1, (editor_inv old new idxs).2.2⟩

/-- C4: for a valid section index, expanding immediately after the collapse
replaces the placeholder line — at its recorded position, on both sides — by
exactly the stored hidden lines, removes the section from the table, leaves
the blocks before the placeholder untouched, decrements by one exactly the
placeholder identifiers greater than `index` (via `renumber`), and the
displayed documents again stand for exactly the original `old` and `new`
texts. -/
theorem expand_round_trip (old new : List String) (index : ℕ)
    (h : index < (set_diff_text old new).collapsed_sections.length) :
    ∃ preO sufO preN sufN,
      (set_diff_text old new).displayedOld =
        preO ++ (placeholderText
            (((set_diff_text old new).collapsed_sections.getD index []).length),
          (index : Int) + 1) :: sufO ∧
      (expand_section (set_diff_text old new) (index : Int)).displayedOld =
        preO ++
          ((set_diff_text old new).collapsed_sections.getD index []).map
            (fun t => (t, (-1 : Int))) ++ renumber index sufO ∧
      (set_diff_text old new).displayedNew =
        preN ++ (placeholderText
            (((set_diff_text old new).collapsed_sections.getD index []).length),
          (index : Int) + 1) :: sufN ∧
      (expand_section (set_diff_text old new) (index : Int)).displayedNew =
        preN ++
          ((set_diff_text old new).collapsed_sections.getD index []).map
            (fun t => (t, (-1 : Int))) ++ renumber index sufN ∧
      (expand_section (set_diff_text old new) (index : Int)).collapsed_sections =
        (set_diff_text old new).collapsed_sections.eraseIdx index ∧
      restoreDoc
        (expand_section (set_diff_text old new) (index : Int)).collapsed_sections
        (expand_section (set_diff_text old new) (index : Int)).displayedOld = old ∧
      restoreDoc
        (expand_section (set_diff_text old new) (index : Int)).collapsed_sections
        (expand_section (set_diff_text old new) (index : Int)).displayedNew = new := by
  obtain ⟨⟨h1, h2⟩, r1, r2⟩ := set_diff_text_inv old new
  have hg : (0 : Int) ≤ (index : Int) ∧
      (index : Int) < ((set_diff_text old new).collapsed_sections.length : Int) := by
    constructor
    · positivity
    · exact_mod_cast h
  have hei : expand_section (set_diff_text old new) (index : Int) =
      expandSectionImpl (set_diff_text old new) index := by
    unfold expand_section
    rw [if_pos hg]
    congr 1
  have hcomp : expandSectionImpl (set_diff_text old new) index =
      ⟨renumber index (replaceFirstPh ((index : Int) + 1)
          ((set_diff_text old new).collapsed_sections.getD index [])
          (set_diff_text old new).displayedOld),
        renumber index (replaceFirstPh ((index : Int) + 1)
          ((set_diff_text old new).collapsed_sections.getD index [])
          (set_diff_text old new).displayedNew),
        (set_diff_text old new).collapsed_sections.eraseIdx index⟩ := rfl
  rw [hei, hcomp]
  obtain ⟨preO, sufO, heqO, hrenO, hresO⟩ :=
    expand_core (set_diff_text old new).collapsed_sections
      (set_diff_text old new).displayedOld index h1 h
  obtain ⟨preN, sufN, heqN, hrenN, hresN⟩ :=
    expand_core (set_diff_text old new).collapsed_sections
      (set_diff_text old new).displayedNew index h2 h
  exact ⟨preO, sufO, preN, sufN, heqO, hrenO, heqN, hrenN, rfl,
    hresO.trans r1, hresN.trans r2⟩

/-- C10: every collapsed section stores the interior
`old[i1+context : i2-context]` of a long-enough equal run, taken from the old
sequence; and since the run is an equal opcode, whose old and new slices
coincide, those stored lines equal the corresponding new-side interior
`new[j1+context : j2-context]` as well, so expansion inserts into each editor
exactly the text that was hidden there. -/
theorem collapsed_sections_both_sides (old new : List String) (sec : List String)
    (hsec : sec ∈ (set_diff_text old new).collapsed_sections) :
    ∃ i1 i2 j1 j2, (Tag.equal, i1, i2, j1, j2) ∈ get_opcodes old new ∧
      COLLAPSE_THRESHOLD_LINES < i2 - i1 ∧
      sec = pySlice old (i1 + COLLAPSE_CONTEXT_LINES) (i2 - COLLAPSE_CONTEXT_LINES) ∧
      sec = pySlice new (j1 + COLLAPSE_CONTEXT_LINES) (j2 - COLLAPSE_CONTEXT_LINES) := by
  rw [set_diff_text_eq_buildD] at hsec
  obtain ⟨op, hop, htag, hgt, hsec_eq⟩ :=
    buildD_sections_mem old new (get_opcodes old new) 0 sec hsec
  obtain ⟨tag, i1, i2, j1, j2⟩ := op
  obtain ⟨ob1, ob2, ob3, ob4, ob5⟩ := get_opcodes_bounds old new _ hop
  have htag' : tag = Tag.equal := htag
  subst htag'
  have heqlen : i2 - i1 = j2 - j1 := (ob5 rfl).1
  have heqslice : pySlice old i1 i2 = pySlice new j1 j2 := (ob5 rfl).2
  refine ⟨i1, i2, j1, j2, hop, hgt, hsec_eq, ?_⟩
  rw [hsec_eq]
  show pySlice old (i1 + 3) (i2 - 3) = pySlice new (j1 + 3) (j2 - 3)
  rw [pySlice_inner old i1 i2 3, pySlice_inner new j1 j2 3, heqslice, heqlen]

/-- Witness for `expand_round_trip`: the collapsed ten-line document has a
section 0, and expanding it restores both sides. -/
theorem expand_round_trip_witness :
    0 < (set_diff_text (List.replicate 10 "L\n")
        (List.replicate 10 "L\n")).collapsed_sections.length ∧
    (∃ preO sufO preN sufN,
      (set_diff_text (List.replicate 10 "L\n") (List.replicate 10 "L\n")).displayedOld =
        preO ++ (placeholderText
            (((set_diff_text (List.replicate 10 "L\n")
              (List.replicate 10 "L\n")).collapsed_sections.getD 0 []).length),
          ((0 : ℕ) : Int) + 1) :: sufO ∧
      (expand_section (set_diff_text (List.replicate 10 "L\n") (List.replicate 10 "L\n"))
          ((0 : ℕ) : Int)).displayedOld =
        preO ++
          ((set_diff_text (List.replicate 10 "L\n")
            (List.replicate 10 "L\n")).collapsed_sections.getD 0 []).map
            (fun t => (t, (-1 : Int))) ++ renumber 0 sufO ∧
      (set_diff_text (List.replicate 10 "L\n") (List.replicate 10 "L\n")).displayedNew =
        preN ++ (placeholderText
            (((set_diff_text (List.replicate 10 "L\n")
              (List.replicate 10 "L\n")).collapsed_sections.getD 0 []).length),
          ((0 : ℕ) : Int) + 1) :: sufN ∧
      (expand_section (set_diff_text (List.replicate 10 "L\n") (List.replicate 10 "L\n"))
          ((0 : ℕ) : Int)).displayedNew =
        preN ++
          ((set_diff_text (List.replicate 10 "L\n")
            (List.replicate 10 "L\n")).collapsed_sections.getD 0 []).map
            (fun t => (t, (-1 : Int))) ++ renumber 0 sufN ∧
      (expand_section (set_diff_text (List.replicate 10 "L\n") (List.replicate 10 "L\n"))
          ((0 : ℕ) : Int)).collapsed_sections =
        (set_diff_text (List.replicate 10 "L\n")
          (List.replicate 10 "L\n")).collapsed_sections.eraseIdx 0 ∧
      restoreDoc
        (expand_section (set_diff_text (List.replicate 10 "L\n") (List.replicate 10 "L\n"))
          ((0 : ℕ) : Int)).collapsed_sections
        (expand_section (set_diff_text (List.replicate 10 "L\n") (List.replicate 10 "L\n"))
          ((0 : ℕ) : Int)).displayedOld = List.replicate 10 "L\n" ∧
      restoreDoc
        (expand_section (set_diff_text (List.replicate 10 "L\n") (List.replicate 10 "L\n"))
          ((0 : ℕ) : Int)).collapsed_sections
        (expand_section (set_diff_text (List.replicate 10 "L\n") (List.replicate 10 "L\n"))
          ((0 : ℕ) : Int)).displayedNew = List.replicate 10 "L\n") :=
  ⟨by decide, expand_round_trip (List.replicate 10 "L\n") (List.replicate 10 "L\n") 0
    (by decide)⟩

/-- Witness for `collapsed_sections_both_sides`: the single section of the
collapsed ten-line document is the four hidden lines, an interior slice of
both sides. -/
theorem collapsed_sections_both_sides_witness :
    ["L\n", "L\n", "L\n", "L\n"] ∈
        (set_diff_text (List.replicate 10 "L\n")
          (List.replicate 10 "L\n")).collapsed_sections ∧
    (∃ i1 i2 j1 j2,
      (Tag.equal, i1, i2, j1, j2) ∈
          get_opcodes (List.replicate 10 "L\n") (List.replicate 10 "L\n") ∧
      COLLAPSE_THRESHOLD_LINES < i2 - i1 ∧
      ["L\n", "L\n", "L\n", "L\n"] =
        pySlice (List.replicate 10 "L\n") (i1 + COLLAPSE_CONTEXT_LINES)
          (i2 - COLLAPSE_CONTEXT_LINES) ∧
      ["L\n", "L\n", "L\n", "L\n"] =
        pySlice (List.replicate 10 "L\n") (j1 + COLLAPSE_CONTEXT_LINES)
          (j2 - COLLAPSE_CONTEXT_LINES)) :=
  ⟨by decide, collapsed_sections_both_sides (List.replicate 10 "L\n")
    (List.replicate 10 "L\n") ["L\n", "L\n", "L\n", "L\n"] (by decide)⟩

end DiffSpec
